import Mathlib

/-!
Verification of the illustration-directive engine of `ppimg.py` against its
natural-language specification.  Every definition in this file is a shallow
embedding of a function of `src/ppimg.py` (source line numbers are given in
the doc comments), except the few definitions explicitly marked as spec-side
formulations used for refinement comparisons.
-/

set_option maxHeartbeats 1000000
set_option maxRecDepth 100000

namespace Ppimg

/-! ## Association lists modelling Python dictionaries -/

/-- Lookup in an association list; models Python `d[k]` / `k in d`. -/
def alookup (k : String) : List (String × α) → Option α
  | [] => none
  | p :: ps => if p.1 = k then some p.2 else alookup k ps

/-- `k in d` for a Python dictionary. -/
def containsKey (d : List (String × α)) (k : String) : Bool :=
  (alookup k d).isSome

/-- Python dictionary assignment `d[k] = v`: overwrite in place if the key is
present (keeping its position, as Python dicts do), else append. -/
def dictInsert (d : List (String × α)) (k : String) (v : α) : List (String × α) :=
  if containsKey d k then d.map (fun p => if p.1 = k then (k, v) else p)
  else d ++ [(k, v)]

/-! ## Filename / id utilities (`ppimg.py` lines 54-62) -/

/-- Split a character list at the last occurrence of `c`; returns the parts
before and after that occurrence, or `none` when `c` does not occur. -/
def splitLast (c : Char) : List Char → Option (List Char × List Char)
  | [] => none
  | a :: rest =>
    match splitLast c rest with
    | some (pre, post) => some (a :: pre, post)
    | none => if a = c ∧ rest ≠ [] then some ([], rest) else none

/-- Split a character list at the last occurrence of `c` (the occurrence may
be the final character). -/
def splitLastAny (c : Char) : List Char → Option (List Char × List Char)
  | [] => none
  | a :: rest =>
    match splitLastAny c rest with
    | some (pre, post) => some (a :: pre, post)
    | none => if a = c then some ([], rest) else none

/-- The stem of `os.path.splitext`: everything before the last dot, except
that a name whose characters before the last dot are all dots is returned
unchanged (`.jpg` has no extension). -/
def splitextBase (s : String) : String :=
  match splitLastAny '.' s.data with
  | some (pre, _) => if pre.any (fun c => c ≠ '.') then String.mk pre else s
  | none => s

/-- `os.path.basename`: the part after the last `/`. -/
def basename (s : String) : String :=
  match splitLastAny '/' s.data with
  | some (_, post) => String.mk post
  | none => s

/-- `idFromFilename` (lines 54-57): basename with its extension stripped. -/
def idFromFilename (fn : String) : String :=
  splitextBase (basename fn)

/-- `idFromPageNumber` (lines 60-62): `'i_{}'.format(pn)`. -/
def idFromPageNumber (pn : String) : String :=
  "i_" ++ pn

/-! ## Scan-page tracking (`parseScanPage`, lines 65-80) -/

/-- `pre.data.isPrefixOf s.data`: models `re.match` of a literal prefix. -/
def strStarts (s pre : String) : Bool :=
  pre.data.isPrefixOf s.data

/-- The extension alternation `(png|jpg|jpeg)` of `parseScanPage`, applied as
a prefix of the remaining characters, in the regex's alternation order. -/
def extAlt (r : List Char) : Option String :=
  if "png".data.isPrefixOf r then some "png"
  else if "jpg".data.isPrefixOf r then some "jpg"
  else if "jpeg".data.isPrefixOf r then some "jpeg"
  else none

/-- One of the three `re.match(r"<pre>(\d+\.(png|jpg|jpeg))...", line)` tests
of `parseScanPage`: a literal prefix, then digits, a dot and an extension;
anything may follow.  Returns the parenthesised group. -/
def matchPageRef (pre line : String) : Option String :=
  if strStarts line pre then
    let rest := line.data.drop pre.data.length
    let ds := rest.takeWhile Char.isDigit
    match rest.dropWhile Char.isDigit with
    | '.' :: r =>
      if ds.isEmpty then none
      else
        match extAlt r with
        | some ext => some (String.mk ds ++ "." ++ ext)
        | none => none
    | _ => none
  else none

/-- `parseScanPage` (lines 65-80).  The three marker shapes have mutually
exclusive leading literals, so applying them in order is equivalent to the
source's "last match wins". -/
def parseScanPage (line : String) : Option String :=
  (matchPageRef "-----File: " line).orElse fun _ =>
    (matchPageRef "// " line).orElse fun _ =>
      matchPageRef ".bn " line

/-! ## `shlex.split` (used by `parseArgs`, line 112)

Models Python's `shlex.split` in POSIX mode: whitespace separates tokens,
single quotes protect everything up to the closing quote, double quotes
protect everything except `\"` and `\\` escapes, and a backslash outside
quotes escapes the next character.  Unterminated quotes or a trailing
backslash raise in Python; that is modelled by returning `none`. -/

/-- Scanner mode: outside quotes, inside single quotes, inside double quotes,
and the two backslash-escape continuations. -/
inductive SMode where
  | norm | squote | dquote | escNorm | escDquote
deriving Repr, DecidableEq

/-- Is `c` one of the `shlex` whitespace characters (`' \t\r\n'`)? -/
def isWsChar (c : Char) : Bool :=
  c == ' ' || c == '\t' || c == '\n' || c == '\r'

/-- The character-at-a-time `shlex` scanner.  The accumulator holds the
current token's characters in reverse; `none` means no token is open. -/
def shlexGo : List Char → SMode → Option (List Char) → Option (List String)
  | [], .norm, none => some []
  | [], .norm, some cs => some [String.mk cs.reverse]
  | [], _, _ => none
  | c :: rest, .norm, cur =>
    if isWsChar c then
      match cur with
      | none => shlexGo rest .norm none
      | some cs => (shlexGo rest .norm none).map (fun ts => String.mk cs.reverse :: ts)
    else if c = '\'' then shlexGo rest .squote (some (cur.getD []))
    else if c = '"' then shlexGo rest .dquote (some (cur.getD []))
    else if c = '\\' then shlexGo rest .escNorm (some (cur.getD []))
    else shlexGo rest .norm (some (c :: cur.getD []))
  | c :: rest, .squote, cur =>
    if c = '\'' then shlexGo rest .norm (some (cur.getD []))
    else shlexGo rest .squote (some (c :: cur.getD []))
  | c :: rest, .dquote, cur =>
    if c = '"' then shlexGo rest .norm (some (cur.getD []))
    else if c = '\\' then shlexGo rest .escDquote (some (cur.getD []))
    else shlexGo rest .dquote (some (c :: cur.getD []))
  | c :: rest, .escNorm, cur => shlexGo rest .norm (some (c :: cur.getD []))
  | c :: rest, .escDquote, cur =>
    if c = '"' ∨ c = '\\' then shlexGo rest .dquote (some (c :: cur.getD []))
    else shlexGo rest .dquote (some (c :: '\\' :: cur.getD []))

/-- `shlex.split(s)`. -/
def shlexSplit (s : String) : Option (List String) :=
  shlexGo s.data .norm none

/-! ## `parseArgs` (lines 108-122) -/

/-- `re.sub(r"[\'\"]","",t)` (line 117): delete quote characters. -/
def stripQuotes (t : String) : String :=
  String.mk (t.data.filter (fun c => c ≠ '\'' ∧ c ≠ '"'))

/-- `re.match(r"(.+)=(.+)", t)` (line 118): with greedy backtracking this
splits at the last `=` that has at least one character after it, and requires
at least one character before the split. -/
def matchKV (t : String) : Option (String × String) :=
  match splitLast '=' t.data with
  | some (pre, post) => if pre = [] then none else some (String.mk pre, String.mk post)
  | none => none

/-- `parseArgs` (lines 108-122): `shlex.split` the command line, drop the
leading `.command` token, and for every remaining token that quote-stripping
turns into `key=value` (both nonempty), record it in the dictionary. -/
def parseArgs (commandLine : String) : Option (List (String × String)) :=
  (shlexSplit commandLine).map fun tokens =>
    (tokens.drop 1).foldl
      (fun acc t =>
        match matchKV (stripQuotes t) with
        | some (k, v) => dictInsert acc k v
        | none => acc)
      []

/-! ## `generateIlStatement` (lines 484-524) -/

/-- The quoting step of `generateIlStatement` (lines 488-490): a value
containing a space character is wrapped in single quotes. -/
def quoteIfSpace (v : String) : String :=
  if v.data.contains ' ' then "'" ++ v ++ "'" else v

/-- The fixed priority order of parameters (lines 493-516). -/
def priorityKeys : List String :=
  ["id", "fn", "link", "alt", "w", "ew", "eh", "align"]

/-- `generateIlStatement` (lines 484-524): quote space-containing values,
emit the priority keys that are present in their fixed order, then the
remaining parameters in dictionary (insertion) order. -/
def generateIlStatement (args : List (String × String)) : String :=
  let args2 := args.map (fun p => (p.1, quoteIfSpace p.2))
  let s1 := priorityKeys.foldl
    (fun s k =>
      match alookup k args2 with
      | some v => s ++ " " ++ k ++ "=" ++ v
      | none => s)
    ".il"
  (args2.filter (fun p => !(priorityKeys.contains p.1))).foldl
    (fun s p => s ++ " " ++ p.1 ++ "=" ++ p.2) s1

/-- Spec-side reordering: the present priority keys in their fixed order,
followed by the remaining parameters in their original stable order.  Used
to compare `generateIlStatement` against the specification's wording. -/
def reorderParams (args : List (String × String)) : List (String × String) :=
  priorityKeys.filterMap (fun k => (alookup k args).map (fun v => (k, v)))
    ++ args.filter (fun p => !(priorityKeys.contains p.1))

/-- Concatenation of a list of strings. -/
def joinStrs : List String → String
  | [] => ""
  | s :: rest => s ++ joinStrs rest

/-- Spec-side serializer: `.il` followed by ` key=value` tokens for the
reordered parameters, where a value containing a space is wrapped in single
quotes. -/
def specSerialize (args : List (String × String)) : String :=
  ".il" ++ joinStrs ((reorderParams args).map
    (fun p => " " ++ p.1 ++ "=" ++ quoteIfSpace p.2))

/-! ## Data model -/

/-- One inventory entry of `buildImageDictionary` (line 199).  The dictionary
itself is built from the filesystem (an external collaborator), so inventories
appear as inputs below. -/
structure ImageAsset where
  anchorID : String
  fileName : String
  scanPageNum : String
  dimensions : Nat × Nat
  caption : String
  usageCount : Nat
deriving Repr, DecidableEq

/-- One parsed `.il`/`.ca` block of `parseIllustrationBlocks` (line 261). -/
structure Directive where
  ilStatement : String
  captionBlock : List String
  ilBlock : List String
  HTML : String
  startLine : Nat
  endLine : Nat
  ilParams : List (String × String)
  scanPageNum : String
deriving Repr, DecidableEq

/-! ## `parseIllustrationBlocks` (lines 210-268) -/

/-- Does the line match `^\.ca \S+` (single-line caption style, line 240)? -/
def isSingleCa (line : String) : Bool :=
  strStarts line ".ca " &&
    match (line.data.drop 4).head? with
    | some c => !c.isWhitespace
    | none => false

/-- The caption-block `while` loop (lines 249-252): starting from the line
`lj` at index `j`, advance until the current line starts with `.ca-`,
collecting each line appended after an advance (so the terminator line itself
is collected, as in the source).  Reading past the end of the buffer is an
`IndexError` in Python, modelled as an error.  `fuel` only bounds the
recursion; it never runs out when called with more fuel than lines remain. -/
def scanCaption (buf : List String) : Nat → Nat → String → Except String (Nat × List String)
  | 0, _, _ => .error "out of fuel"
  | fuel + 1, j, lj =>
    if strStarts lj ".ca-" then .ok (j, [])
    else
      match buf[j + 1]? with
      | none => .error "IndexError: list index out of range"
      | some l2 =>
        match scanCaption buf fuel (j + 1) l2 with
        | .ok (t, ls) => .ok (t, l2 :: ls)
        | .error e => .error e

/-- The scan-page update applied to each visited line (lines 219-222): the
current page becomes the extension-stripped marker when the line is one of
the page-marker shapes, else it is unchanged. -/
def trackPage (line page0 : String) : String :=
  match parseScanPage line with
  | some pn => splitextBase pn
  | none => page0

/-- The main loop of `parseIllustrationBlocks` (lines 217-264): track the
current scan page, and at every line starting with `.il ` consume the
directive line plus an optional caption (single-line or block), recording one
`Directive` keyed by the id derived from its `fn` parameter.  A missing `fn`
is a `KeyError` and a caption block that never terminates is an `IndexError`,
both modelled as errors.  `fuel` only bounds the recursion. -/
def parseFrom (buf : List String) : Nat → Nat → String → List (String × Directive) →
    Except String (List (String × Directive))
  | 0, _, _, _ => .error "out of fuel"
  | fuel + 1, lineNum, page0, ills =>
    match buf[lineNum]? with
    | none => .ok ills
    | some line =>
      if strStarts line ".il " then
        match parseArgs line with
        | none => .error "ValueError in shlex"
        | some ilParams =>
          match buf[lineNum + 1]? with
          | none => .error "IndexError: list index out of range"
          | some next =>
            if strStarts next ".ca" then
              if isSingleCa next then
                match alookup "fn" ilParams with
                | none => .error "KeyError: fn"
                | some fn =>
                  parseFrom buf fuel (lineNum + 2) (trackPage line page0)
                    (dictInsert ills (idFromFilename fn)
                      { ilStatement := line, captionBlock := [next.drop 4]
                        ilBlock := [line, next], HTML := ""
                        startLine := lineNum, endLine := lineNum + 3
                        ilParams := ilParams, scanPageNum := trackPage line page0 })
              else
                match scanCaption buf (buf.length + 1) (lineNum + 1) next with
                | .error e => .error e
                | .ok (t, capLines) =>
                  match alookup "fn" ilParams with
                  | none => .error "KeyError: fn"
                  | some fn =>
                    parseFrom buf fuel t (trackPage line page0)
                      (dictInsert ills (idFromFilename fn)
                        { ilStatement := line, captionBlock := capLines
                          ilBlock := line :: next :: capLines, HTML := ""
                          startLine := lineNum, endLine := t + 1
                          ilParams := ilParams, scanPageNum := trackPage line page0 })
            else
              match alookup "fn" ilParams with
              | none => .error "KeyError: fn"
              | some fn =>
                parseFrom buf fuel (lineNum + 1) (trackPage line page0)
                  (dictInsert ills (idFromFilename fn)
                    { ilStatement := line, captionBlock := []
                      ilBlock := [line], HTML := ""
                      startLine := lineNum, endLine := lineNum + 1
                      ilParams := ilParams, scanPageNum := trackPage line page0 })
      else
        parseFrom buf fuel (lineNum + 1) (trackPage line page0) ills

/-- `parseIllustrationBlocks` (lines 210-268): scan the whole buffer starting
from line 0 with initial scan page `0`. -/
def parseIllustrationBlocks (buf : List String) : Except String (List (String × Directive)) :=
  parseFrom buf (buf.length + 1) 0 "0" []

/-! ## The ID resolver of `convertRawIllustrationMarkup` (lines 423-443) -/

/-- `map(chr, range(97,123))` (line 429): the letters `a` to `z`. -/
def letters : List Char :=
  (List.range 26).map (fun n => Char.ofNat (97 + n))

/-- Does `id` exist in the inventory with usage count 0? -/
def usage0 (inv : List (String × ImageAsset)) (id : String) : Bool :=
  match alookup id inv with
  | some a => a.usageCount == 0
  | none => false

/-- The ID resolver (lines 423-438): from the current scan page derive the
base id; return it if unused, else the first unused of `base+'a'`..`base+'z'`,
else `base` if it exists at all, else fail (`fatal`, modelled as `none`). -/
def resolveIlID (inv : List (String × ImageAsset)) (currentScanPage : String) : Option String :=
  let testID := idFromPageNumber currentScanPage
  if usage0 inv testID then some testID
  else
    match letters.findSome?
        (fun letter =>
          if usage0 inv (testID.push letter) then some (testID.push letter) else none) with
    | some id => some id
    | none => if (alookup testID inv).isSome then some testID else none

/-- `illustrations[ilID]['usageCount'] += 1` (line 443). -/
def markUsed (inv : List (String × ImageAsset)) (id : String) : List (String × ImageAsset) :=
  inv.map (fun p => if p.1 = id then (p.1, { p.2 with usageCount := p.2.usageCount + 1 }) else p)

/-- The generated `.il` line of the raw-markup converter (line 442):
`.il id=<id> fn=<fileName> w=<width>px alt=''`. -/
def rawIlLine (ilID fileName : String) (width : Nat) : String :=
  ".il id=" ++ ilID ++ " fn=" ++ fileName ++ " w=" ++ toString width ++ "px" ++ " alt=''"

/-- Spec-side resolver: the first id of `[base, base+'a', …, base+'z']` that
is in the inventory with usage count 0; else `base` when it exists at all;
else failure.  Used for the refinement comparison in claim C1. -/
def specResolveID (inv : List (String × ImageAsset)) (currentScanPage : String) : Option String :=
  let base := idFromPageNumber currentScanPage
  match (base :: letters.map base.push).find? (fun id => usage0 inv id) with
  | some id => some id
  | none => if (alookup base inv).isSome then some base else none

/-! ## The width reconciler: loop body of `updateWidths` (lines 537-552) -/

/-- The per-directive body of `updateWidths` (lines 540-548): read the `w`
parameter (`KeyError` when absent), copy it into `ew` when it contains `%`,
then overwrite `w` with the referenced asset's pixel width suffixed `px`.
The asset is looked up by the id derived from `fn` (`KeyError` when the
parameter or the asset is missing). -/
def updateWidthsDirective (images : List (String × ImageAsset))
    (ilParams : List (String × String)) : Except String (List (String × String)) :=
  match alookup "w" ilParams with
  | none => .error "KeyError: w"
  | some curWidth =>
    let p1 := if curWidth.data.contains '%' then dictInsert ilParams "ew" curWidth else ilParams
    match alookup "fn" p1 with
    | none => .error "KeyError: fn"
    | some fn =>
      match alookup (idFromFilename fn) images with
      | none => .error "KeyError: image"
      | some img => .ok (dictInsert p1 "w" (toString img.dimensions.1 ++ "px"))

/-! ## `loadJSON` (lines 621-633) and the width cache -/

/-- One value of the width cache `images.json`. -/
structure CacheEntry where
  targetWidth : String
deriving Repr, DecidableEq

/-- The width cache: a mapping from asset storage path to entry. -/
abbrev Cache := List (String × CacheEntry)

/-- `loadJSON` (lines 621-633): try to open the file and JSON-decode it; ANY
exception — the file being missing as well as its contents being malformed —
is caught, logged at info level, and an empty dictionary is returned.  The
filesystem and the stdlib decoder are external, so the function takes the
file's contents (`none` when the file does not exist) and the decoder. -/
def loadJSON (file : Option String) (decode : String → Option Cache) : Cache :=
  match file with
  | none => []
  | some contents =>
    match decode contents with
    | none => []
    | some d => d

/-- The body of the `try` block of `loadJSON`: open then decode, either step
raising (`none`) when the file is missing or its contents malformed. -/
def readJSONFile (file : Option String) (decode : String → Option Cache) : Option Cache :=
  file.bind decode

/-! ## `calcImageWidths` (lines 636-679) -/

/-- The numeric value of a nonempty list of decimal digits. -/
def natFromDigits (ds : List Char) : Nat :=
  ds.foldl (fun n c => n * 10 + (c.toNat - 48)) 0

/-- Python `int()` applied to a string: an optional sign followed by at least
one decimal digit (surrounding whitespace and digit-group underscores, which
never arise here, are not modelled); anything else is a `ValueError`. -/
def parsePyInt (s : String) : Option Int :=
  match s.data with
  | [] => none
  | '-' :: ds =>
    if ds ≠ [] ∧ ds.all Char.isDigit then some (-(natFromDigits ds : Int)) else none
  | '+' :: ds =>
    if ds ≠ [] ∧ ds.all Char.isDigit then some (natFromDigits ds : Int) else none
  | ds =>
    if ds.all Char.isDigit then some (natFromDigits ds : Int) else none

/-- `int(re.sub("%", "", s))`: delete the `%` characters and parse the rest
as a Python integer literal. -/
def pctToInt (s : String) : Except String Int :=
  match parsePyInt (String.mk (s.data.filter (fun c => c ≠ '%'))) with
  | some v => .ok v
  | none => .error "ValueError: invalid literal for int"

/-- Round-to-nearest, ties-to-even, of the ratio `n / d` (`d > 0`): the
default rounding rule of IEEE-754 binary64 arithmetic. -/
def rhe (n d : Nat) : Nat :=
  let q := n / d
  let r := n % d
  if 2 * r < d then q
  else if d < 2 * r then q + 1
  else if q % 2 = 0 then q else q + 1

/-- Fuelled binary descent for `⌊log₂ n⌋` (kernel-reducible, unlike the
well-founded recursion of `Nat.log2`). -/
def log2Fuel : Nat → Nat → Nat
  | 0, _ => 0
  | fuel + 1, n => if 2 ≤ n then log2Fuel fuel (n / 2) + 1 else 0

/-- `⌊log₂ n⌋` (0 at 0). -/
def natLog2 (n : Nat) : Nat := log2Fuel n n

/-- A nonnegative IEEE-754 binary64 value `m · 2^(e-52)`: zero (`m = 0`) or
normalised with `2^52 ≤ m < 2^53`.  Overflow to infinity and subnormals do
not arise in the in-range uses below and are not modelled. -/
structure Fp where
  m : Nat
  e : Int
deriving Repr, DecidableEq

/-- `float(n)` for a nonnegative arbitrary-precision integer `n`: the
round-half-even conversion to binary64, which is how CPython converts the
int operand of a mixed int/float operation. -/
def flOfNat (n : Nat) : Fp :=
  if n = 0 then ⟨0, 0⟩ else
  let t := natLog2 n
  if t ≤ 52 then ⟨n * 2 ^ (52 - t), (t : Int)⟩
  else
    let m := rhe n (2 ^ (t - 52))
    if m = 2 ^ 53 then ⟨2 ^ 52, (t : Int) + 1⟩ else ⟨m, (t : Int)⟩

/-- IEEE-754 binary64 division of nonnegative doubles (`y ≠ 0`): the
correctly rounded (half-even) quotient.  The quotient of normalised `x`, `y`
lies in `[1, 2)` when `y.m ≤ x.m` and in `(1/2, 1)` otherwise. -/
def flDivFp (x y : Fp) : Fp :=
  if x.m = 0 then ⟨0, 0⟩ else
  if y.m ≤ x.m then
    let m := rhe (x.m * 2 ^ 52) y.m
    if m = 2 ^ 53 then ⟨2 ^ 52, x.e - y.e + 1⟩ else ⟨m, x.e - y.e⟩
  else
    let m := rhe (x.m * 2 ^ 53) y.m
    if m = 2 ^ 53 then ⟨2 ^ 52, x.e - y.e⟩ else ⟨m, x.e - y.e - 1⟩

/-- IEEE-754 binary64 multiplication of nonnegative doubles: the correctly
rounded (half-even) product. -/
def flMul (x y : Fp) : Fp :=
  if x.m = 0 ∨ y.m = 0 then ⟨0, 0⟩ else
  let P := x.m * y.m
  let t := natLog2 P
  let m := rhe P (2 ^ (t - 52))
  let e := x.e + y.e + (t : Int) - 104
  if m = 2 ^ 53 then ⟨2 ^ 52, e + 1⟩ else ⟨m, e⟩

/-- Python `int()` of a nonnegative double: truncation toward zero. -/
def fpTrunc (x : Fp) : Nat :=
  if x.e < 52 then x.m / 2 ^ (52 - x.e).toNat else x.m * 2 ^ (x.e - 52).toNat

/-- `int(int(v)/100.0 * int(maxwidth))` (lines 649/651 and 656) computed in
binary64 exactly as CPython does: convert the percentage to a double, divide
by the double `100.0`, convert `maxwidth` to a double, multiply, truncate
toward zero.  A negative percentage follows by the sign symmetry of
round-half-even and of truncation. -/
def floatWidth (v : Int) (maxwidth : Nat) : Int :=
  let mag := fpTrunc (flMul (flDivFp (flOfNat v.natAbs) (flOfNat 100)) (flOfNat maxwidth))
  if v < 0 then -(mag : Int) else (mag : Int)

/-- The scale selection of `calcImageWidths` (lines 648-654): the percentage
integer parsed from the `w` parameter when it is present with a `%`, else
from the `ew` parameter likewise, else `none` for the `scale = 0` branch
(logged as an error but not fatal); a parse failure (`ValueError`) is
fatal. -/
def calcScale (ilParams : List (String × String)) : Except String (Option Int) :=
  match alookup "w" ilParams with
  | some w =>
    if w.data.contains '%' then (pctToInt w).map some
    else
      match alookup "ew" ilParams with
      | some ew =>
        if ew.data.contains '%' then (pctToInt ew).map some
        else .ok none
      | none => .ok none
  | none =>
    match alookup "ew" ilParams with
    | some ew =>
      if ew.data.contains '%' then (pctToInt ew).map some
      else .ok none
    | none => .ok none

/-- `'"{}"'.format(int(scale * int(maxwidth)))` (line 656): the computed
width rendered as a decimal string wrapped in literal double quotes.  A
parsed percentage goes through the binary64 computation of `floatWidth`;
the `scale = 0` branch multiplies by the exact int `0`. -/
def calculatedWidthStr (scaleV : Option Int) (maxwidth : Nat) : String :=
  match scaleV with
  | some v => "\"" ++ toString (floatWidth v maxwidth) ++ "\""
  | none => "\"0\""

/-- Insertion sort on string keys; models Python `sorted(d.items())` for a
dictionary (whose keys are distinct, so values are never compared). -/
def insertSorted (p : String × α) : List (String × α) → List (String × α)
  | [] => [p]
  | q :: qs => if q.1 < p.1 then q :: insertSorted p qs else p :: q :: qs

/-- `sorted(d.items())` for a dictionary with distinct keys. -/
def sortByKey (l : List (String × α)) : List (String × α) :=
  l.foldr insertSorted []

/-- One iteration of the directive loop of `calcImageWidths` (lines
644-661): compute the scale, render the quoted width and record it under
`images/<fn>` (`KeyError` when `fn` is absent). -/
def calcIlStep (maxwidth : Nat) (acc : Cache) (kp : String × List (String × String)) :
    Except String Cache :=
  match calcScale kp.2 with
  | .error e => .error e
  | .ok scale =>
    match alookup "fn" kp.2 with
    | none => .error "KeyError: fn"
    | some fn =>
      .ok (dictInsert acc ("images/" ++ fn) ⟨calculatedWidthStr scale maxwidth⟩)

/-- One iteration of the fallback loop of `calcImageWidths` (lines 665-672):
an inventory asset with no corresponding directive gets the fixed `"40%"`
entry. -/
def calcFallbackStep (ills : List (String × List (String × String)))
    (acc : Cache) (kp : String × ImageAsset) : Cache :=
  if containsKey ills kp.1 then acc
  else dictInsert acc ("images/" ++ kp.2.fileName) ⟨"\"40%\""⟩

/-- `calcImageWidths` (lines 636-679) up to its external side effects: from
the parsed directives compute each percentage-scaled target width and record
it in the cache under `images/<fn>`; then give every inventory asset with no
corresponding directive the fallback entry `"40%"`; all merged into the
pre-existing cache contents `jsonData`.  The final JSON write and the `touch`
of the master images are external collaborator actions. -/
def calcImageWidths (ills : List (String × List (String × String)))
    (images : List (String × ImageAsset)) (maxwidth : Nat) (jsonData : Cache) :
    Except String Cache :=
  match ills.foldlM (calcIlStep maxwidth) jsonData with
  | .error e => .error e
  | .ok d1 => .ok ((sortByKey images).foldl (calcFallbackStep ills) d1)

/-- The cache keys the directive loop writes. -/
def illsKeys (ills : List (String × List (String × String))) : List String :=
  ills.filterMap (fun kp => (alookup "fn" kp.2).map (fun fn => "images/" ++ fn))

/-- The cache keys the fallback loop writes. -/
def fallbackKeys (ills : List (String × List (String × String)))
    (images : List (String × ImageAsset)) : List String :=
  (sortByKey images).filterMap
    (fun kp => if containsKey ills kp.1 then none else some ("images/" ++ kp.2.fileName))

/-- The keys the width-calculation pass writes: one per directive (derived
from its `fn` parameter) and one per inventory asset with no corresponding
directive. -/
def writtenKeys (ills : List (String × List (String × String)))
    (images : List (String × ImageAsset)) : List String :=
  illsKeys ills ++ fallbackKeys ills images

/-! ## `checkForIssues` (lines 132-175) -/

/-- One finding of the consistency checker, in the order the source logs
them. -/
inductive Finding where
  | unusedImage (fileName : String)
  | overWidth (fileName : String) (w maxW : Nat)
  | overHeight (fileName : String) (h maxH : Nat)
  | overSize (fileName : String) (size maxSize : Nat)
  | missingImage (fn : String)
  | widthMismatch (w actual : Nat) (startLine : Nat) (ilStatement : String)
deriving Repr, DecidableEq

/-- The per-image findings of `checkForIssues` (lines 139-160): an image with
no corresponding directive is unused (the cover-image exemption on line 141
is commented out in the source), and dimension/file-size guideline violations
are warned about.  `fileSizeBytes` is the external `os.stat`; the division by
1000 and `int()` truncation of `getFileSizeInKb` (lines 125-130, 154) become
natural division. -/
def imageCheckStep (ills : List (String × Directive)) (fileSizeBytes : String → Nat)
    (kp : String × ImageAsset) : List Finding :=
  (if !(containsKey ills kp.1) then [Finding.unusedImage kp.2.fileName] else [])
    ++ (if 700 < kp.2.dimensions.1 then
        [Finding.overWidth kp.2.fileName kp.2.dimensions.1 700] else [])
    ++ (if 700 < kp.2.dimensions.2 then
        [Finding.overHeight kp.2.fileName kp.2.dimensions.2 700] else [])
    ++ (if 100 < fileSizeBytes ("images/" ++ kp.2.fileName) / 1000 then
        [Finding.overSize kp.2.fileName (fileSizeBytes ("images/" ++ kp.2.fileName) / 1000) 100]
        else [])

/-- The per-image findings loop of `checkForIssues` (lines 139-160), over the
sorted inventory. -/
def imageFindings (images : List (String × ImageAsset))
    (ills : List (String × Directive)) (fileSizeBytes : String → Nat) : List Finding :=
  (sortByKey images).flatMap (imageCheckStep ills fileSizeBytes)

/-- The per-directive findings of `checkForIssues` (lines 163-173): missing
image, and a literal pixel `w` parameter that disagrees with the asset's true
width.  Missing `fn`/`w` parameters are `KeyError`s and a `w` with neither
`%` nor digits is a `ValueError`, modelled as errors. -/
def illAcc1 (images : List (String × ImageAsset)) (acc : List Finding)
    (kp : String × Directive) (fn : String) : List Finding :=
  if !(containsKey images kp.1) then acc ++ [Finding.missingImage fn] else acc

def illFindingsStep (images : List (String × ImageAsset)) (acc : List Finding)
    (kp : String × Directive) : Except String (List Finding) :=
  match alookup "fn" kp.2.ilParams with
  | none => .error "KeyError: fn"
  | some fn =>
    match alookup "w" kp.2.ilParams with
    | none => .error "KeyError: w"
    | some w =>
      if w.data.contains '%' then .ok (illAcc1 images acc kp fn)
      else
        match parsePyInt (String.mk (w.data.filter Char.isDigit)) with
        | none => .error "ValueError: invalid literal for int"
        | some wi =>
          match alookup kp.1 images with
          | some img =>
            if wi.toNat ≠ img.dimensions.1 then
              .ok (illAcc1 images acc kp fn ++ [Finding.widthMismatch wi.toNat img.dimensions.1
                kp.2.startLine kp.2.ilStatement])
            else .ok (illAcc1 images acc kp fn)
          | none => .ok (illAcc1 images acc kp fn)

/-- The per-directive findings loop (lines 163-173), folded over the sorted
directives. -/
def illFindings (images : List (String × ImageAsset))
    (ills : List (String × Directive)) : Except String (List Finding) :=
  (sortByKey ills).foldlM (illFindingsStep images) []

/-- `checkForIssues` (lines 132-175): all per-image findings followed by all
per-directive findings.  The inventory and the parsed directives are built by
the callees `buildImageDictionary` and `parseIllustrationBlocks`; they appear
here as inputs. -/
def checkForIssues (images : List (String × ImageAsset))
    (ills : List (String × Directive)) (fileSizeBytes : String → Nat) :
    Except String (List Finding) :=
  match illFindings images ills with
  | .error e => .error e
  | .ok b => .ok (imageFindings images ills fileSizeBytes ++ b)

/-- A character a `shlex` key must be built from: not whitespace, not a
quote, not a backslash and not `=`. -/
def keyChar (c : Char) : Prop :=
  c ≠ ' ' ∧ c ≠ '\t' ∧ c ≠ '\n' ∧ c ≠ '\r' ∧ c ≠ '\'' ∧ c ≠ '"' ∧ c ≠ '\\' ∧ c ≠ '='

/-- A character a round-trippable value may contain: like `keyChar` but a
space is allowed (the serializer quotes space-containing values). -/
def valChar (c : Char) : Prop :=
  c ≠ '\t' ∧ c ≠ '\n' ∧ c ≠ '\r' ∧ c ≠ '\'' ∧ c ≠ '"' ∧ c ≠ '\\' ∧ c ≠ '='

instance (c : Char) : Decidable (keyChar c) := by unfold keyChar; infer_instance

instance (c : Char) : Decidable (valChar c) := by unfold valChar; infer_instance

/-- A parameter key that survives the serialize→parse round-trip: nonempty
and made of `keyChar`s. -/
def keySafe (s : String) : Prop := s.data ≠ [] ∧ ∀ c ∈ s.data, keyChar c

/-- A parameter value that survives the serialize→parse round-trip: nonempty
and made of `valChar`s. -/
def valSafe (s : String) : Prop := s.data ≠ [] ∧ ∀ c ∈ s.data, valChar c

instance (s : String) : Decidable (keySafe s) := by unfold keySafe; infer_instance

instance (s : String) : Decidable (valSafe s) := by unfold valSafe; infer_instance

/-- The `key=value` content of a serialized token (quotes removed). -/
def kvToken (p : String × String) : String := p.1 ++ "=" ++ p.2

/-- The characters of the serialized ` key=value` tokens of a pair list. -/
def tokChars : List (String × String) → List Char
  | [] => []
  | p :: ps => (" " ++ p.1 ++ "=" ++ quoteIfSpace p.2).data ++ tokChars ps

/-! ## Helper lemmas about association lists -/

theorem alookup_append (k : String) (l₁ l₂ : List (String × α)) :
    alookup k (l₁ ++ l₂) =
      match alookup k l₁ with
      | some v => some v
      | none => alookup k l₂ := by
  induction l₁ with
  | nil => simp [alookup]
  | cons p ps ih =>
    by_cases h : p.1 = k <;> simp [alookup, h, ih]

theorem alookup_map_set (d : List (String × α)) (k : String) (v : α)
    (h : containsKey d k = true) :
    alookup k (d.map (fun p => if p.1 = k then (k, v) else p)) = some v := by
  induction d with
  | nil => simp [containsKey, alookup] at h
  | cons p ps ih =>
    by_cases hp : p.1 = k
    · simp [alookup, hp]
    · simp [containsKey, alookup, hp] at h ⊢
      exact ih h

theorem alookup_map_set_ne (d : List (String × α)) (k : String) (v : α) (k' : String)
    (h : k' ≠ k) :
    alookup k' (d.map (fun p => if p.1 = k then (k, v) else p)) = alookup k' d := by
  have hk : ¬ (k = k') := fun hh => h hh.symm
  induction d with
  | nil => simp [alookup]
  | cons p ps ih =>
    by_cases hp : p.1 = k
    · simp [alookup, hp, hk, ih]
    · by_cases hp' : p.1 = k' <;> simp [alookup, hp, hp', h, ih]

theorem alookup_dictInsert_self (d : List (String × α)) (k : String) (v : α) :
    alookup k (dictInsert d k v) = some v := by
  unfold dictInsert
  by_cases h : containsKey d k
  · simp [h, alookup_map_set d k v h]
  · simp [h, alookup_append]
    unfold containsKey at h
    cases hl : alookup k d with
    | none => simp [alookup]
    | some w => simp [hl] at h

theorem alookup_dictInsert_ne (d : List (String × α)) (k : String) (v : α) (k' : String)
    (h : k' ≠ k) :
    alookup k' (dictInsert d k v) = alookup k' d := by
  unfold dictInsert
  by_cases hc : containsKey d k
  · simp [hc, alookup_map_set_ne d k v k' h]
  · have hk : ¬ (k = k') := fun hh => h hh.symm
    simp [hc, alookup_append]
    cases hl : alookup k' d with
    | none => simp [alookup, hk]
    | some w => simp

theorem containsKey_dictInsert (d : List (String × α)) (k : String) (v : α) (k' : String) :
    containsKey (dictInsert d k v) k' =
      (containsKey d k' || decide (k' = k)) := by
  by_cases h : k' = k
  · subst h
    simp [containsKey, alookup_dictInsert_self]
  · simp [containsKey, alookup_dictInsert_ne d k v k' h, h]

/-! ## Lemmas about the `shlex` scanner -/

theorem mk_data (s : String) : String.mk s.data = s := rfl

theorem eq_of_data_eq (s t : String) (h : s.data = t.data) : s = t :=
  congrArg String.mk h

theorem isWsChar_eq_false (c : Char) (h1 : c ≠ ' ') (h2 : c ≠ '\t') (h3 : c ≠ '\n')
    (h4 : c ≠ '\r') : isWsChar c = false := by
  simp [isWsChar, h1, h2, h3, h4]

theorem shlexGo_plain (c : Char) (rest : List Char) (cur : Option (List Char))
    (hws : isWsChar c = false) (h1 : c ≠ '\'') (h2 : c ≠ '"') (h3 : c ≠ '\\') :
    shlexGo (c :: rest) .norm cur = shlexGo rest .norm (some (c :: cur.getD [])) := by
  simp [shlexGo, hws, h1, h2, h3]

theorem shlexGo_ws_some (c : Char) (hc : isWsChar c = true) (rest acc : List Char) :
    shlexGo (c :: rest) .norm (some acc) =
      (shlexGo rest .norm none).map (fun ts => String.mk acc.reverse :: ts) := by
  simp [shlexGo, hc]

theorem shlexGo_squote_enter (rest : List Char) (cur : Option (List Char)) :
    shlexGo ('\'' :: rest) .norm cur = shlexGo rest .squote (some (cur.getD [])) := by
  have h : isWsChar '\'' = false := by decide
  simp [shlexGo, h]

theorem shlexGo_squote_step (c : Char) (h : c ≠ '\'') (rest : List Char)
    (cur : Option (List Char)) :
    shlexGo (c :: rest) .squote cur = shlexGo rest .squote (some (c :: cur.getD [])) := by
  simp [shlexGo, h]

theorem shlexGo_squote_close (rest : List Char) (cur : Option (List Char)) :
    shlexGo ('\'' :: rest) .squote cur = shlexGo rest .norm (some (cur.getD [])) := by
  simp [shlexGo]

theorem shlexGo_plain_run (cs : List Char)
    (h : ∀ c ∈ cs, isWsChar c = false ∧ c ≠ '\'' ∧ c ≠ '"' ∧ c ≠ '\\')
    (l acc : List Char) :
    shlexGo (cs ++ l) .norm (some acc) = shlexGo l .norm (some (cs.reverse ++ acc)) := by
  induction cs generalizing acc with
  | nil => simp
  | cons c cs ih =>
    obtain ⟨hws, h1, h2, h3⟩ := h c (by simp)
    rw [List.cons_append, shlexGo_plain c _ _ hws h1 h2 h3]
    simp only [Option.getD_some]
    rw [ih (fun d hd => h d (by simp [hd])) (c :: acc)]
    simp

theorem shlexGo_squote_run (cs : List Char) (h : ∀ c ∈ cs, c ≠ '\'') (l acc : List Char) :
    shlexGo (cs ++ '\'' :: l) .squote (some acc) = shlexGo l .norm (some (cs.reverse ++ acc)) := by
  induction cs generalizing acc with
  | nil =>
    rw [List.nil_append, shlexGo_squote_close]
    simp
  | cons c cs ih =>
    rw [List.cons_append, shlexGo_squote_step c (h c (by simp)) _ _]
    simp only [Option.getD_some]
    rw [ih (fun d hd => h d (by simp [hd])) (c :: acc)]
    simp

theorem keyChar_plain (c : Char) (h : keyChar c) :
    isWsChar c = false ∧ c ≠ '\'' ∧ c ≠ '"' ∧ c ≠ '\\' := by
  obtain ⟨h1, h2, h3, h4, h5, h6, h7, h8⟩ := h
  exact ⟨isWsChar_eq_false c h1 h2 h3 h4, h5, h6, h7⟩

theorem valChar_plain (c : Char) (h : valChar c) (hsp : c ≠ ' ') :
    isWsChar c = false ∧ c ≠ '\'' ∧ c ≠ '"' ∧ c ≠ '\\' := by
  obtain ⟨h1, h2, h3, h4, h5, h6, h7⟩ := h
  exact ⟨isWsChar_eq_false c hsp h1 h2 h3, h4, h5, h6⟩

/-- Scanning one serialized `key=<possibly quoted>value` token leaves the
scanner holding the unquoted `key=value` characters. -/
theorem shlexGo_token (k v : String) (hk : keySafe k) (hv : valSafe v) (l : List Char) :
    shlexGo ((k ++ "=" ++ quoteIfSpace v).data ++ l) .norm none
      = shlexGo l .norm (some ((k ++ "=" ++ v).data.reverse)) := by
  obtain ⟨hk0, hkc⟩ := hk
  obtain ⟨hv0, hvc⟩ := hv
  have heq : ("=" : String).data = ['='] := rfl
  cases hkd : k.data with
  | nil => exact absurd hkd hk0
  | cons c cs =>
    have hc : keyChar c := hkc c (by rw [hkd]; simp)
    have hcs : ∀ d ∈ cs, keyChar d := fun d hd => hkc d (by rw [hkd]; simp [hd])
    obtain ⟨cws, c1, c2, c3⟩ := keyChar_plain c hc
    have hdata : (k ++ "=" ++ quoteIfSpace v).data ++ l
        = c :: (cs ++ ('=' :: ((quoteIfSpace v).data ++ l))) := by
      simp [String.data_append, heq, hkd]
    rw [hdata, shlexGo_plain c _ none cws c1 c2 c3]
    simp only [Option.getD_none]
    rw [shlexGo_plain_run cs (fun d hd => keyChar_plain d (hcs d hd)) _ [c]]
    rw [shlexGo_plain '=' _ _ (by decide) (by decide) (by decide) (by decide)]
    simp only [Option.getD_some]
    have htarget : (k ++ "=" ++ v).data.reverse
        = v.data.reverse ++ ('=' :: (cs.reverse ++ [c])) := by
      simp [String.data_append, heq, hkd, List.reverse_append]
    by_cases hsp : v.data.contains ' '
    · have hsp' : ' ' ∈ v.data := by simpa using hsp
      have hq : quoteIfSpace v = "'" ++ v ++ "'" := by simp [quoteIfSpace, hsp']
      have hqd : (quoteIfSpace v).data ++ l = '\'' :: (v.data ++ '\'' :: l) := by
        rw [hq]
        simp [String.data_append]
      rw [hqd, shlexGo_squote_enter]
      simp only [Option.getD_some]
      rw [shlexGo_squote_run v.data (fun d hd => (hvc d hd).2.2.2.1) l
        ('=' :: (cs.reverse ++ [c]))]
      rw [htarget]
    · have hsp' : ' ' ∉ v.data := by simpa using hsp
      have hq : quoteIfSpace v = v := by simp [quoteIfSpace, hsp']
      have hnosp : ∀ d ∈ v.data, d ≠ ' ' := fun d hd hd' => hsp' (hd' ▸ hd)
      rw [hq]
      rw [shlexGo_plain_run v.data
        (fun d hd => valChar_plain d (hvc d hd) (hnosp d hd)) l
        ('=' :: (cs.reverse ++ [c]))]
      rw [htarget]

/-- Scanning the serialized token stream of a safe pair list flushes the
pending token and yields one unquoted `key=value` token per pair. -/
theorem shlexGo_tokens (ps : List (String × String))
    (h : ∀ p ∈ ps, keySafe p.1 ∧ valSafe p.2) (acc : List Char) :
    shlexGo (tokChars ps) .norm (some acc)
      = some (String.mk acc.reverse :: ps.map kvToken) := by
  induction ps generalizing acc with
  | nil => rfl
  | cons p ps ih =>
    have hd : tokChars (p :: ps)
        = ' ' :: ((p.1 ++ "=" ++ quoteIfSpace p.2).data ++ tokChars ps) := by
      simp [tokChars, String.data_append]
    rw [hd, shlexGo_ws_some ' ' (by decide) _ acc,
      shlexGo_token p.1 p.2 (h p (by simp)).1 (h p (by simp)).2 (tokChars ps),
      ih (fun q hq => h q (by simp [hq]))]
    have hkv : String.mk ((p.1 ++ "=" ++ p.2).data.reverse.reverse) = kvToken p := by
      rw [List.reverse_reverse]
      rfl
    rw [hkv]
    rfl

/-! ## The serializer's shape and the serialize→parse round-trip -/

theorem joinStrs_append (a b : List String) :
    joinStrs (a ++ b) = joinStrs a ++ joinStrs b := by
  induction a with
  | nil => simp [joinStrs]
  | cons s a ih => simp [joinStrs, ih, String.append_assoc]

theorem emit_foldl (ps : List (String × String)) (s : String) :
    ps.foldl (fun s p => s ++ " " ++ p.1 ++ "=" ++ p.2) s
      = s ++ joinStrs (ps.map (fun p => " " ++ p.1 ++ "=" ++ p.2)) := by
  induction ps generalizing s with
  | nil => simp [joinStrs]
  | cons p ps ih =>
    rw [List.foldl_cons, ih, List.map_cons]
    simp [joinStrs, String.append_assoc]

theorem priorityFold (ks : List String) (m : List (String × String)) (s : String) :
    ks.foldl
        (fun s k =>
          match alookup k m with
          | some v => s ++ " " ++ k ++ "=" ++ v
          | none => s) s
      = s ++ joinStrs ((ks.filterMap (fun k => (alookup k m).map (fun v => (k, v)))).map
          (fun p => " " ++ p.1 ++ "=" ++ p.2)) := by
  induction ks generalizing s with
  | nil => simp [joinStrs]
  | cons k ks ih =>
    rw [List.foldl_cons, List.filterMap_cons]
    cases hl : alookup k m with
    | none => simp [hl, ih]
    | some v =>
      simp only [hl, Option.map_some, ih, List.map_cons]
      simp [joinStrs, String.append_assoc]

theorem alookup_map_value (f : String → String) (args : List (String × String)) (k : String) :
    alookup k (args.map (fun p => (p.1, f p.2))) = (alookup k args).map f := by
  induction args with
  | nil => simp [alookup]
  | cons p ps ih => by_cases hp : p.1 = k <;> simp [alookup, hp, ih]

theorem filter_map_value (f : String → String) (pred : String → Bool)
    (args : List (String × String)) :
    (args.map (fun p => (p.1, f p.2))).filter (fun p => pred p.1)
      = (args.filter (fun p => pred p.1)).map (fun p => (p.1, f p.2)) := by
  induction args with
  | nil => rfl
  | cons p ps ih => by_cases hp : pred p.1 <;> simp [List.filter_cons, hp, ih]

theorem filterMap_lookup_quote (ks : List String) (args : List (String × String)) :
    ks.filterMap
        (fun k => (alookup k (args.map (fun p => (p.1, quoteIfSpace p.2)))).map
          (fun v => (k, v)))
      = (ks.filterMap (fun k => (alookup k args).map (fun v => (k, v)))).map
          (fun p => (p.1, quoteIfSpace p.2)) := by
  induction ks with
  | nil => rfl
  | cons k ks ih =>
    rw [List.filterMap_cons, List.filterMap_cons, alookup_map_value]
    cases alookup k args <;> simp [ih]

/-- The source serializer produces exactly the specification's serialization:
`.il`, the present priority keys in their fixed order, then the remaining
parameters in stable order, space-containing values single-quoted. -/
theorem generateIlStatement_eq_specSerialize (args : List (String × String)) :
    generateIlStatement args = specSerialize args := by
  unfold generateIlStatement specSerialize
  rw [emit_foldl, priorityFold, filterMap_lookup_quote,
    filter_map_value quoteIfSpace (fun k => !(priorityKeys.contains k)) args]
  unfold reorderParams
  rw [List.map_append, joinStrs_append, List.map_map, List.map_map, ← String.append_assoc]
  have hfun : ((fun p : String × String => " " ++ p.1 ++ "=" ++ p.2) ∘
      fun p : String × String => (p.1, quoteIfSpace p.2))
      = fun p : String × String => " " ++ p.1 ++ "=" ++ quoteIfSpace p.2 := rfl
  rw [hfun]

/-- Tokenizing the serialized form of a safe parameter list yields `.il`
followed by one unquoted `key=value` token per reordered pair. -/
theorem shlexSplit_specSerialize (args : List (String × String))
    (h : ∀ p ∈ reorderParams args, keySafe p.1 ∧ valSafe p.2) :
    shlexSplit (specSerialize args) = some (".il" :: (reorderParams args).map kvToken) := by
  have hjoin : ∀ ps : List (String × String),
      (joinStrs (ps.map (fun p => " " ++ p.1 ++ "=" ++ quoteIfSpace p.2))).data
        = tokChars ps := by
    intro ps
    induction ps with
    | nil => rfl
    | cons p ps ih => simp [joinStrs, tokChars, String.data_append, ih]
  unfold shlexSplit specSerialize
  have hdata : (".il" ++ joinStrs ((reorderParams args).map
      (fun p => " " ++ p.1 ++ "=" ++ quoteIfSpace p.2))).data
      = '.' :: 'i' :: 'l' :: tokChars (reorderParams args) := by
    rw [String.data_append, hjoin]
    rfl
  rw [hdata]
  rw [shlexGo_plain '.' _ none (by decide) (by decide) (by decide) (by decide)]
  simp only [Option.getD_none]
  rw [shlexGo_plain 'i' _ _ (by decide) (by decide) (by decide) (by decide)]
  simp only [Option.getD_some]
  rw [shlexGo_plain 'l' _ _ (by decide) (by decide) (by decide) (by decide)]
  simp only [Option.getD_some]
  rw [shlexGo_tokens (reorderParams args) h ['l', 'i', '.']]
  rfl

theorem kvToken_data (p : String × String) :
    (kvToken p).data = p.1.data ++ '=' :: p.2.data := by
  simp [kvToken, String.data_append]

theorem stripQuotes_id (t : String) (h : ∀ c ∈ t.data, c ≠ '\'' ∧ c ≠ '"') :
    stripQuotes t = t := by
  unfold stripQuotes
  rw [List.filter_eq_self.mpr, mk_data]
  intro c hc
  exact decide_eq_true (h c hc)

theorem splitLast_none (c : Char) (l : List Char) (h : ∀ d ∈ l, d ≠ c) :
    splitLast c l = none := by
  induction l with
  | nil => rfl
  | cons d l ih =>
    unfold splitLast
    rw [ih (fun e he => h e (by simp [he]))]
    simp [h d (by simp)]

theorem splitLast_eq_cons (c : Char) (k v : List Char) (hk : ∀ d ∈ k, d ≠ c)
    (hv : ∀ d ∈ v, d ≠ c) (hvne : v ≠ []) :
    splitLast c (k ++ c :: v) = some (k, v) := by
  induction k with
  | nil =>
    rw [List.nil_append]
    unfold splitLast
    rw [splitLast_none c v hv]
    simp [hvne]
  | cons d k ih =>
    rw [List.cons_append]
    unfold splitLast
    rw [ih (fun e he => hk e (by simp [he]))]

theorem matchKV_kvToken (p : String × String) (hk : keySafe p.1) (hv : valSafe p.2) :
    matchKV (kvToken p) = some p := by
  unfold matchKV
  rw [kvToken_data,
    splitLast_eq_cons '=' _ _ (fun d hd => (hk.2 d hd).2.2.2.2.2.2.2)
      (fun d hd => (hv.2 d hd).2.2.2.2.2.2) hv.1]
  simp [hk.1, mk_data]

theorem containsKey_append (l₁ l₂ : List (String × α)) (k : String) :
    containsKey (l₁ ++ l₂) k = (containsKey l₁ k || containsKey l₂ k) := by
  unfold containsKey
  rw [alookup_append]
  cases alookup k l₁ <;> simp

theorem dictInsert_not_contains (d : List (String × α)) (k : String) (v : α)
    (h : containsKey d k = false) : dictInsert d k v = d ++ [(k, v)] := by
  unfold dictInsert
  simp [h]

theorem foldl_dictInsert_append (ps : List (String × String)) :
    ∀ acc : List (String × String), (ps.map Prod.fst).Nodup →
      (∀ p ∈ ps, containsKey acc p.1 = false) →
      ps.foldl (fun a p => dictInsert a p.1 p.2) acc = acc ++ ps := by
  induction ps with
  | nil =>
    intro acc _ _
    simp
  | cons p ps ih =>
    intro acc hnd hdis
    rw [List.foldl_cons, dictInsert_not_contains acc p.1 p.2 (hdis p (by simp))]
    have hnd' : (ps.map Prod.fst).Nodup := by
      rw [List.map_cons, List.nodup_cons] at hnd
      exact hnd.2
    have hout : p.1 ∉ ps.map Prod.fst := by
      rw [List.map_cons, List.nodup_cons] at hnd
      exact hnd.1
    have hdis' : ∀ q ∈ ps, containsKey (acc ++ [(p.1, p.2)]) q.1 = false := by
      intro q hq
      rw [containsKey_append, hdis q (by simp [hq]), Bool.false_or]
      have hne : ¬ (p.1 = q.1) := fun he => hout (he ▸ List.mem_map_of_mem Prod.fst hq)
      simp [containsKey, alookup, hne]
    rw [ih (acc ++ [(p.1, p.2)]) hnd' hdis']
    simp

theorem parse_fold_tokens (ps : List (String × String)) (acc : List (String × String))
    (h : ∀ p ∈ ps, keySafe p.1 ∧ valSafe p.2) :
    (ps.map kvToken).foldl
        (fun a t =>
          match matchKV (stripQuotes t) with
          | some (k, v) => dictInsert a k v
          | none => a) acc
      = ps.foldl (fun a p => dictInsert a p.1 p.2) acc := by
  induction ps generalizing acc with
  | nil => rfl
  | cons p ps ih =>
    have h1 := (h p (by simp)).1
    have h2 := (h p (by simp)).2
    have hsq : stripQuotes (kvToken p) = kvToken p := by
      apply stripQuotes_id
      intro c hc
      rw [kvToken_data] at hc
      rcases List.mem_append.mp hc with hm | hm
      · exact ⟨(h1.2 c hm).2.2.2.2.1, (h1.2 c hm).2.2.2.2.2.1⟩
      · rcases List.mem_cons.mp hm with he | hm
        · subst he
          exact ⟨by decide, by decide⟩
        · exact ⟨(h2.2 c hm).2.2.2.1, (h2.2 c hm).2.2.2.2.1⟩
    rw [List.map_cons, List.foldl_cons, List.foldl_cons, hsq, matchKV_kvToken p h1 h2]
    exact ih _ (fun q hq => h q (by simp [hq]))

/-! ## Key structure of `reorderParams` -/

theorem mapFst_filterMap_lookup (ks : List String) (args : List (String × String)) :
    (ks.filterMap (fun k => (alookup k args).map (fun v => (k, v)))).map Prod.fst
      = ks.filter (fun k => containsKey args k) := by
  induction ks with
  | nil => rfl
  | cons k ks ih =>
    rw [List.filterMap_cons, List.filter_cons]
    cases hl : alookup k args <;> simp [containsKey, hl, ih]

theorem mapFst_filter_keypred (pred : String → Bool) (args : List (String × String)) :
    (args.filter (fun p => pred p.1)).map Prod.fst = (args.map Prod.fst).filter pred := by
  induction args with
  | nil => rfl
  | cons p ps ih => by_cases hp : pred p.1 <;> simp [List.filter_cons, hp, ih]

theorem reorderParams_keys_nodup (args : List (String × String))
    (h : (args.map Prod.fst).Nodup) :
    ((reorderParams args).map Prod.fst).Nodup := by
  unfold reorderParams
  rw [List.map_append, mapFst_filterMap_lookup,
    mapFst_filter_keypred (fun k => !(priorityKeys.contains k)) args]
  apply List.Nodup.append
  · exact List.Nodup.filter _ (by decide)
  · exact List.Nodup.filter _ h
  · intro a ha hb
    have h1 : a ∈ priorityKeys := (List.mem_filter.mp ha).1
    have h2 := (List.mem_filter.mp hb).2
    simp at h2
    exact h2 h1

theorem alookup_filterMap_lookup (ks : List String) (hks : ks.Nodup)
    (args : List (String × String)) (k' : String) :
    alookup k' (ks.filterMap (fun k => (alookup k args).map (fun v => (k, v))))
      = if k' ∈ ks then alookup k' args else none := by
  induction ks with
  | nil => simp [alookup]
  | cons k ks ih =>
    have hnd := List.nodup_cons.mp hks
    rw [List.filterMap_cons]
    cases hl : alookup k args with
    | some v =>
      simp only [Option.map_some']
      by_cases hk : k = k'
      · subst hk
        simp [alookup, hl]
      · have hk' : ¬ (k' = k) := fun he => hk he.symm
        simp [alookup, hk, ih hnd.2, List.mem_cons, hk']
    | none =>
      simp only [Option.map_none']
      rw [ih hnd.2]
      by_cases hk : k' = k
      · subst hk
        have hns : k' ∉ ks := hnd.1
        simp [hns, hl]
      · simp [List.mem_cons, hk]

theorem alookup_filter_keypred (pred : String → Bool) (args : List (String × String))
    (k' : String) :
    alookup k' (args.filter (fun p => pred p.1))
      = if pred k' then alookup k' args else none := by
  induction args with
  | nil => simp [alookup]
  | cons p ps ih =>
    by_cases hp : pred p.1
    · by_cases hk : p.1 = k'
      · subst hk
        simp [List.filter_cons, hp, alookup]
      · simp [List.filter_cons, hp, alookup, hk, ih]
    · by_cases hk : p.1 = k'
      · subst hk
        have hpk : pred p.1 = false := by simpa using hp
        simp [List.filter_cons, hpk, alookup, ih]
      · simp [List.filter_cons, hp, alookup, hk, ih]

theorem alookup_reorderParams (args : List (String × String)) (k' : String) :
    alookup k' (reorderParams args) = alookup k' args := by
  unfold reorderParams
  rw [alookup_append, alookup_filterMap_lookup priorityKeys (by decide) args k',
    alookup_filter_keypred (fun k => !(priorityKeys.contains k)) args k']
  by_cases hk : k' ∈ priorityKeys
  · have hc : priorityKeys.contains k' = true := by simpa using hk
    simp only [hk, if_true, hc, Bool.not_true, Bool.false_eq_true, if_false]
    cases alookup k' args <;> simp
  · have hc : priorityKeys.contains k' = false := by simpa using hk
    simp [hk, hc]

theorem alookup_mem (args : List (String × String)) (k : String) (v : String)
    (h : alookup k args = some v) : (k, v) ∈ args := by
  induction args with
  | nil => simp [alookup] at h
  | cons p ps ih =>
    by_cases hp : p.1 = k
    · simp only [alookup, hp, if_true, Option.some.injEq] at h
      subst h
      subst hp
      simp
    · simp only [alookup, hp, if_false] at h
      exact List.mem_cons_of_mem p (ih h)

theorem mem_reorderParams (args : List (String × String)) (p : String × String)
    (hp : p ∈ reorderParams args) : p ∈ args := by
  unfold reorderParams at hp
  rcases List.mem_append.mp hp with h | h
  · obtain ⟨k, _, hpk⟩ := List.mem_filterMap.mp h
    cases hl : alookup k args with
    | none => rw [hl] at hpk; simp at hpk
    | some v =>
      rw [hl] at hpk
      simp only [Option.map_some', Option.some.injEq] at hpk
      subst hpk
      exact alookup_mem args k v hl
  · exact List.mem_of_mem_filter h

/-! ## Claim C9: serializer determinism -/

/-- C9 (amended) — Directive Serializer determinism: for every parameter
mapping the serialized line is exactly `.il` followed by the present priority
keys `id, fn, link, alt, w, ew, eh, align` in that fixed order and then the
remaining parameters in their stable insertion order, where a value
containing a space character (not arbitrary whitespace) is wrapped in single
quotes.  (`specSerialize`/`reorderParams` are the specification-side
formulation of that sentence.) -/
theorem serializer_deterministic_order (args : List (String × String)) :
    generateIlStatement args = specSerialize args :=
  generateIlStatement_eq_specSerialize args

/-- Counterexample for C9 as stated: a parameter value containing whitespace
(a tab) is NOT wrapped in quotes — the source only tests for a space
character (line 489), so the serialized output contains no quote at all. -/
theorem serializer_whitespace_counterexample :
    ("a\tb".data.contains '\t' = true) ∧ ('\t'.isWhitespace = true) ∧
    generateIlStatement [("alt", "a\tb")] = ".il alt=a\tb" ∧
    ((generateIlStatement [("alt", "a\tb")]).data.contains '\'' = false) ∧
    ((generateIlStatement [("alt", "a\tb")]).data.contains '"' = false) := by
  decide

/-! ## Claim C3: serialize-then-parse round-trip -/

/-- C3 (amended) — Directive serialize-then-parse round-trip: for every
parameter mapping (distinct keys) whose keys are nonempty and free of
whitespace, quotes, backslashes and `=`, and whose values are nonempty and
free of quotes, backslashes, `=` and whitespace other than spaces, parsing
the serialized directive line recovers exactly the same keys and values
(only the order is fixed by the serializer).  The original claim excluded
only quote characters; an empty value is also lost (see the
counterexample), and `=`/backslash/non-space whitespace are likewise not
round-trippable. -/
theorem serialize_parse_roundtrip (args : List (String × String))
    (hnd : (args.map Prod.fst).Nodup)
    (hsafe : ∀ p ∈ args, keySafe p.1 ∧ valSafe p.2) :
    parseArgs (generateIlStatement args) = some (reorderParams args) ∧
    ∀ k, alookup k (reorderParams args) = alookup k args := by
  have hsafe' : ∀ p ∈ reorderParams args, keySafe p.1 ∧ valSafe p.2 :=
    fun p hp => hsafe p (mem_reorderParams args p hp)
  constructor
  · rw [generateIlStatement_eq_specSerialize]
    unfold parseArgs
    rw [shlexSplit_specSerialize args hsafe']
    rw [Option.map_some']
    refine congrArg some ?_
    rw [show (".il" :: (reorderParams args).map kvToken).drop 1
        = (reorderParams args).map kvToken from rfl]
    rw [parse_fold_tokens (reorderParams args) [] hsafe']
    rw [foldl_dictInsert_append (reorderParams args) []
      (reorderParams_keys_nodup args hnd) (fun p _ => rfl)]
    rfl
  · exact alookup_reorderParams args

/-- Counterexample for C3 as stated: the mapping `alt ↦ ""` has no quote
character in its value, yet serializing gives `.il alt=` and the parser's
`(.+)=(.+)` match drops the empty-valued token, so the key `alt` is lost. -/
theorem roundtrip_empty_value_counterexample :
    ¬ ∃ l, parseArgs (generateIlStatement [("alt", "")]) = some l ∧
      ∀ k, alookup k l = alookup k [("alt", "")] := by
  have he : parseArgs (generateIlStatement [("alt", "")])
      = some ([] : List (String × String)) := by decide
  rintro ⟨l, hl, hk⟩
  rw [he] at hl
  injection hl with h
  subst h
  have h2 := hk "alt"
  simp [alookup] at h2

/-- Witness for the amended C3 at a concrete mapping with a priority key, a
space-containing value and an extension key. -/
theorem serialize_parse_roundtrip_witness :
    parseArgs (generateIlStatement [("fn", "i_1.jpg"), ("alt", "a b"), ("zz", "9")])
      = some (reorderParams [("fn", "i_1.jpg"), ("alt", "a b"), ("zz", "9")]) ∧
    ∀ k, alookup k (reorderParams [("fn", "i_1.jpg"), ("alt", "a b"), ("zz", "9")])
      = alookup k [("fn", "i_1.jpg"), ("alt", "a b"), ("zz", "9")] :=
  serialize_parse_roundtrip [("fn", "i_1.jpg"), ("alt", "a b"), ("zz", "9")]
    (by decide) (by decide)

/-! ## Claim C10: empty-valued parameters are dropped by `parseArgs` -/

theorem digitChar_isDigit (n : Nat) (h : n < 10) : (Nat.digitChar n).isDigit = true := by
  interval_cases n <;> decide

theorem toDigitsCore_digits (fuel : Nat) : ∀ (n : Nat) (acc : List Char),
    (∀ c ∈ acc, c.isDigit = true) → ∀ c ∈ Nat.toDigitsCore 10 fuel n acc, c.isDigit = true := by
  induction fuel with
  | zero => exact fun n acc hacc c hc => hacc c hc
  | succ fuel ih =>
    intro n acc hacc c hc
    unfold Nat.toDigitsCore at hc
    have hd : (Nat.digitChar (n % 10)).isDigit = true :=
      digitChar_isDigit _ (Nat.mod_lt n (by norm_num))
    by_cases hz : n / 10 = 0
    · simp only [hz, if_true, if_pos] at hc
      rcases List.mem_cons.mp hc with he | hm
      · subst he
        exact hd
      · exact hacc c hm
    · simp only [hz, if_neg, if_false] at hc
      exact ih (n / 10) (Nat.digitChar (n % 10) :: acc)
        (fun d hdm => by
          rcases List.mem_cons.mp hdm with he | hm
          · subst he
            exact hd
          · exact hacc d hm) c hc

theorem natRepr_digits (n : Nat) : ∀ c ∈ (Nat.repr n).data, c.isDigit = true := by
  intro c hc
  have hdata : (Nat.repr n).data = Nat.toDigitsCore 10 (n + 1) n [] := rfl
  rw [hdata] at hc
  exact toDigitsCore_digits (n + 1) n [] (by simp) c hc

theorem digit_keyChar (c : Char) (hc : c.isDigit = true) : keyChar c := by
  refine ⟨?_, ?_, ?_, ?_, ?_, ?_, ?_, ?_⟩ <;>
    exact fun he => absurd hc (by subst he; decide)

theorem keySafe_valSafe (s : String) (h : keySafe s) : valSafe s :=
  ⟨h.1, fun c hc => ((h.2 c hc).2 : valChar c)⟩

/-- Tokenizing the converter's generated `.il` line: the `alt=''` at its end
becomes the quoteless token `alt=`. -/
theorem shlexSplit_rawIlLine (ilID fileName : String) (width : Nat)
    (hid : keySafe ilID) (hfn : keySafe fileName) :
    shlexSplit (rawIlLine ilID fileName width)
      = some [".il", "id=" ++ ilID, "fn=" ++ fileName,
          "w=" ++ (toString width ++ "px"), "alt="] := by
  have hwd : ∀ c ∈ (toString width).data, keyChar c :=
    fun c hc => digit_keyChar c (natRepr_digits width c hc)
  have hdata : (rawIlLine ilID fileName width).data
      = '.' :: 'i' :: 'l' :: ' ' :: 'i' :: 'd' :: '='
          :: (ilID.data ++ ' ' :: 'f' :: 'n' :: '='
          :: (fileName.data ++ ' ' :: 'w' :: '='
          :: ((toString width).data ++ 'p' :: 'x' :: ' ' :: 'a' :: 'l' :: 't' :: '='
          :: '\'' :: '\'' :: []))) := by
    simp [rawIlLine, String.data_append]
  unfold shlexSplit
  rw [hdata]
  rw [shlexGo_plain '.' _ none (by decide) (by decide) (by decide) (by decide)]
  simp only [Option.getD_none]
  rw [shlexGo_plain 'i' _ _ (by decide) (by decide) (by decide) (by decide)]
  simp only [Option.getD_some]
  rw [shlexGo_plain 'l' _ _ (by decide) (by decide) (by decide) (by decide)]
  simp only [Option.getD_some]
  rw [shlexGo_ws_some ' ' (by decide) _ _]
  rw [shlexGo_plain 'i' _ none (by decide) (by decide) (by decide) (by decide)]
  simp only [Option.getD_none]
  rw [shlexGo_plain 'd' _ _ (by decide) (by decide) (by decide) (by decide)]
  simp only [Option.getD_some]
  rw [shlexGo_plain '=' _ _ (by decide) (by decide) (by decide) (by decide)]
  simp only [Option.getD_some]
  rw [shlexGo_plain_run ilID.data (fun c hc => keyChar_plain c (hid.2 c hc)) _ _]
  rw [shlexGo_ws_some ' ' (by decide) _ _]
  rw [shlexGo_plain 'f' _ none (by decide) (by decide) (by decide) (by decide)]
  simp only [Option.getD_none]
  rw [shlexGo_plain 'n' _ _ (by decide) (by decide) (by decide) (by decide)]
  simp only [Option.getD_some]
  rw [shlexGo_plain '=' _ _ (by decide) (by decide) (by decide) (by decide)]
  simp only [Option.getD_some]
  rw [shlexGo_plain_run fileName.data (fun c hc => keyChar_plain c (hfn.2 c hc)) _ _]
  rw [shlexGo_ws_some ' ' (by decide) _ _]
  rw [shlexGo_plain 'w' _ none (by decide) (by decide) (by decide) (by decide)]
  simp only [Option.getD_none]
  rw [shlexGo_plain '=' _ _ (by decide) (by decide) (by decide) (by decide)]
  simp only [Option.getD_some]
  rw [shlexGo_plain_run (toString width).data (fun c hc => keyChar_plain c (hwd c hc)) _ _]
  rw [shlexGo_plain 'p' _ _ (by decide) (by decide) (by decide) (by decide)]
  simp only [Option.getD_some]
  rw [shlexGo_plain 'x' _ _ (by decide) (by decide) (by decide) (by decide)]
  simp only [Option.getD_some]
  rw [shlexGo_ws_some ' ' (by decide) _ _]
  rw [shlexGo_plain 'a' _ none (by decide) (by decide) (by decide) (by decide)]
  simp only [Option.getD_none]
  rw [shlexGo_plain 'l' _ _ (by decide) (by decide) (by decide) (by decide)]
  simp only [Option.getD_some]
  rw [shlexGo_plain 't' _ _ (by decide) (by decide) (by decide) (by decide)]
  simp only [Option.getD_some]
  rw [shlexGo_plain '=' _ _ (by decide) (by decide) (by decide) (by decide)]
  simp only [Option.getD_some]
  rw [shlexGo_squote_enter]
  simp only [Option.getD_some]
  rw [shlexGo_squote_close]
  simp only [Option.getD_some]
  have hbase : shlexGo [] SMode.norm (some ['=', 't', 'l', 'a']) = some ["alt="] := rfl
  rw [hbase]
  simp only [Option.map_some']
  refine congrArg some ?_
  have t1 : String.mk (List.reverse ['l', 'i', '.']) = ".il" := rfl
  have t2 : String.mk (List.reverse (ilID.data.reverse ++ ['=', 'd', 'i']))
      = "id=" ++ ilID := by
    apply eq_of_data_eq
    simp [String.data_append]
  have t3 : String.mk (List.reverse (fileName.data.reverse ++ ['=', 'n', 'f']))
      = "fn=" ++ fileName := by
    apply eq_of_data_eq
    simp [String.data_append]
  have t4 : String.mk (List.reverse
        ('x' :: 'p' :: ((toString width).data.reverse ++ ['=', 'w'])))
      = "w=" ++ (toString width ++ "px") := by
    apply eq_of_data_eq
    simp [String.data_append]
  have t5 : String.mk (List.reverse ['=', 't', 'l', 'a']) = "alt=" := rfl
  rw [t1, t2, t3, t4]

/-- `parseArgs` of the raw-markup converter's generated line (which always
ends in `alt=''`) yields a mapping holding exactly `id`, `fn` and `w` — no
`alt` entry survives. -/
theorem parseArgs_rawIlLine (ilID fileName : String) (width : Nat)
    (hid : keySafe ilID) (hfn : keySafe fileName) :
    parseArgs (rawIlLine ilID fileName width)
      = some [("id", ilID), ("fn", fileName), ("w", toString width ++ "px")] ∧
    (parseArgs (rawIlLine ilID fileName width)).map (alookup "alt") = some none := by
  have hwv : valSafe (toString width ++ "px") := by
    constructor
    · simp [String.data_append]
    · intro c hc
      rw [String.data_append] at hc
      rcases List.mem_append.mp hc with hm | hm
      · exact (digit_keyChar c (natRepr_digits width c hm)).2
      · rcases List.mem_cons.mp hm with he | hm
        · subst he
          decide
        · rcases List.mem_cons.mp hm with he | hm
          · subst he
            decide
          · simp at hm
  have hmain : parseArgs (rawIlLine ilID fileName width)
      = some [("id", ilID), ("fn", fileName), ("w", toString width ++ "px")] := by
    unfold parseArgs
    rw [shlexSplit_rawIlLine ilID fileName width hid hfn, Option.map_some']
    refine congrArg some ?_
    show List.foldl _ ([] : List (String × String))
        ["id=" ++ ilID, "fn=" ++ fileName, "w=" ++ (toString width ++ "px"), "alt="] = _
    have m1 : matchKV (stripQuotes ("id=" ++ ilID)) = some ("id", ilID) := by
      rw [stripQuotes_id _ (fun c hc => by
        rw [show ("id=" ++ ilID).data = 'i' :: 'd' :: '=' :: ilID.data from by
          simp [String.data_append]] at hc
        rcases List.mem_cons.mp hc with he | hc
        · subst he; exact ⟨by decide, by decide⟩
        · rcases List.mem_cons.mp hc with he | hc
          · subst he; exact ⟨by decide, by decide⟩
          · rcases List.mem_cons.mp hc with he | hc
            · subst he; exact ⟨by decide, by decide⟩
            · exact ⟨(hid.2 c hc).2.2.2.2.1, (hid.2 c hc).2.2.2.2.2.1⟩)]
      exact matchKV_kvToken ("id", ilID) (show keySafe "id" by decide) (keySafe_valSafe ilID hid)
    have m2 : matchKV (stripQuotes ("fn=" ++ fileName)) = some ("fn", fileName) := by
      rw [stripQuotes_id _ (fun c hc => by
        rw [show ("fn=" ++ fileName).data = 'f' :: 'n' :: '=' :: fileName.data from by
          simp [String.data_append]] at hc
        rcases List.mem_cons.mp hc with he | hc
        · subst he; exact ⟨by decide, by decide⟩
        · rcases List.mem_cons.mp hc with he | hc
          · subst he; exact ⟨by decide, by decide⟩
          · rcases List.mem_cons.mp hc with he | hc
            · subst he; exact ⟨by decide, by decide⟩
            · exact ⟨(hfn.2 c hc).2.2.2.2.1, (hfn.2 c hc).2.2.2.2.2.1⟩)]
      exact matchKV_kvToken ("fn", fileName) (show keySafe "fn" by decide) (keySafe_valSafe fileName hfn)
    have m3 : matchKV (stripQuotes ("w=" ++ (toString width ++ "px")))
        = some ("w", toString width ++ "px") := by
      rw [stripQuotes_id _ (fun c hc => by
        rw [show ("w=" ++ (toString width ++ "px")).data
            = 'w' :: '=' :: (toString width ++ "px").data from by
          simp [String.data_append]] at hc
        rcases List.mem_cons.mp hc with he | hc
        · subst he; exact ⟨by decide, by decide⟩
        · rcases List.mem_cons.mp hc with he | hc
          · subst he; exact ⟨by decide, by decide⟩
          · exact ⟨(hwv.2 c hc).2.2.2.1, (hwv.2 c hc).2.2.2.2.1⟩)]
      exact matchKV_kvToken ("w", toString width ++ "px") (show keySafe "w" by decide) hwv
    have m4 : matchKV (stripQuotes "alt=") = none := by decide
    simp only [List.foldl_cons, List.foldl_nil, m1, m2, m3, m4]
    have h1 : containsKey ([] : List (String × String)) "id" = false := rfl
    have h2 : containsKey [("id", ilID)] "fn" = false := by
      simp [containsKey, alookup]
    have h3 : containsKey [("id", ilID), ("fn", fileName)] "w" = false := by
      simp [containsKey, alookup]
    rw [dictInsert_not_contains _ _ _ h1]
    simp only [List.nil_append]
    rw [dictInsert_not_contains _ _ _ h2]
    simp only [List.cons_append, List.nil_append]
    rw [dictInsert_not_contains _ _ _ h3]
    rfl
  refine ⟨hmain, ?_⟩
  rw [hmain]
  simp [alookup]

theorem splitLast_trailing (c : Char) : ∀ (l : List Char), (∀ d ∈ l, d ≠ c) →
    splitLast c (l ++ [c]) = none := by
  intro l
  induction l with
  | nil =>
    intro _
    simp [splitLast]
  | cons d l ih =>
    intro h
    rw [List.cons_append]
    unfold splitLast
    rw [ih (fun e he => h e (by simp [he]))]
    simp [h d (by simp)]

/-- An empty-valued token `key=` (the quote-stripped form of both `key=`
and `key=''`) fails the `(.+)=(.+)` match: the trailing `=` has nothing
after it. -/
theorem matchKV_empty_value (k : String) (hkeq : ∀ d ∈ k.data, d ≠ '=') :
    matchKV (k ++ "=") = none := by
  unfold matchKV
  have hd : (k ++ "=").data = k.data ++ ['='] := by
    rw [String.data_append]
  rw [hd, splitLast_trailing '=' k.data hkeq]

theorem alookup_parse_fold (k : String) :
    ∀ (toks : List String) (acc : List (String × String)),
    alookup k acc = none →
    (∀ tok ∈ toks, (matchKV (stripQuotes tok)).map Prod.fst ≠ some k) →
    alookup k (toks.foldl
      (fun acc t =>
        match matchKV (stripQuotes t) with
        | some (q, v) => dictInsert acc q v
        | none => acc) acc) = none := by
  intro toks
  induction toks with
  | nil => exact fun acc hacc _ => hacc
  | cons t ts ih =>
    intro acc hacc h
    rw [List.foldl_cons]
    cases hm : matchKV (stripQuotes t) with
    | none =>
      exact ih acc hacc (fun tok htok => h tok (List.mem_cons_of_mem t htok))
    | some p =>
      obtain ⟨q, v⟩ := p
      show alookup k (ts.foldl _ (dictInsert acc q v)) = none
      have hne : q ≠ k := by
        intro he
        apply h t (List.mem_cons_self t ts)
        rw [hm, Option.map_some', he]
      refine ih _ ?_ (fun tok htok => h tok (List.mem_cons_of_mem t htok))
      rw [alookup_dictInsert_ne _ _ _ _ (fun he => hne he.symm)]
      exact hacc

/-- C10 (amended) — `parseArgs` silently drops empty-valued parameters: in
every directive line, a token of the form `key=` or `key=''`
(quote-stripping turns the latter into the former) fails the `(.+)=(.+)`
match and contributes no entry, so a key all of whose occurrences in the
line are empty-valued gets no entry in the parsed mapping.  A key that also
appears with a nonempty value keeps that entry — see the counterexample —
so the original universal "contains no entry for that key" does not hold. -/
theorem parseArgs_drops_empty_params (s t : String) (toks : List String)
    (res : List (String × String)) (k : String)
    (hkeq : ∀ d ∈ k.data, d ≠ '=')
    (hs : shlexSplit s = some (t :: toks))
    (hocc : ∀ tok ∈ toks, stripQuotes tok = k ++ "=" ∨
      (matchKV (stripQuotes tok)).map Prod.fst ≠ some k)
    (hp : parseArgs s = some res) :
    alookup k res = none := by
  unfold parseArgs at hp
  rw [hs, Option.map_some'] at hp
  injection hp with hp2
  subst hp2
  simp only [List.drop_succ_cons, List.drop_zero]
  apply alookup_parse_fold k toks [] rfl
  intro tok htok
  rcases hocc tok htok with he | hne
  · rw [he, matchKV_empty_value k hkeq]
    exact fun hcon => Option.noConfusion hcon
  · exact hne

/-- Counterexample for C10 as stated: the directive line `.il alt=x alt=''`
contains the empty-valued token `alt=''`, yet the parsed mapping does hold
an entry for `alt` — the earlier nonempty occurrence survives; only the
empty-valued token itself is dropped. -/
theorem parseArgs_empty_value_key_kept_counterexample :
    parseArgs ".il alt=x alt=''" = some [("alt", "x")] ∧
    alookup "alt" [("alt", "x")] = some "x" := ⟨by decide, by decide⟩

/-- Witness for the amended C10: in `.il fn=a.jpg alt=''` every `alt` token
is empty-valued (there is one, the converter's form), and the parsed mapping
has no `alt` entry. -/
theorem parseArgs_drops_empty_params_witness :
    alookup "alt" [("fn", "a.jpg")] = none :=
  parseArgs_drops_empty_params ".il fn=a.jpg alt=''" ".il" ["fn=a.jpg", "alt="]
    [("fn", "a.jpg")] "alt" (by decide) (by decide) (by decide) (by decide)

/-! ## Claim C5: an unterminated caption block is fatal -/

theorem starts_il_not_ca (s : String) (h : strStarts s ".il " = true) :
    strStarts s ".ca" = false := by
  unfold strStarts at h ⊢
  rw [List.isPrefixOf_iff_prefix] at h
  by_contra hc
  rw [Bool.not_eq_false, List.isPrefixOf_iff_prefix] at hc
  rcases List.prefix_or_prefix_of_prefix hc h with hh | hh
  · exact absurd hh (by decide)
  · exact absurd hh (by decide)

theorem starts_il_not_cadash (s : String) (h : strStarts s ".il " = true) :
    strStarts s ".ca-" = false := by
  unfold strStarts at h ⊢
  rw [List.isPrefixOf_iff_prefix] at h
  by_contra hc
  rw [Bool.not_eq_false, List.isPrefixOf_iff_prefix] at hc
  rcases List.prefix_or_prefix_of_prefix hc h with hh | hh
  · exact absurd hh (by decide)
  · exact absurd hh (by decide)

/-- The caption-block `while` loop raises (`IndexError`) whenever no line
from the current position to the end of the buffer starts with `.ca-`. -/
theorem scanCaption_error (buf : List String) (fuel : Nat) : ∀ (j : Nat) (lj : String),
    buf[j]? = some lj →
    (∀ m s, j ≤ m → buf[m]? = some s → strStarts s ".ca-" = false) →
    (scanCaption buf fuel j lj).toOption = none := by
  induction fuel with
  | zero => intro j lj _ _; rfl
  | succ fuel ih =>
    intro j lj hj hterm
    unfold scanCaption
    rw [hterm j lj le_rfl hj]
    simp only [Bool.false_eq_true, if_false]
    split
    · rfl
    · rename_i l2 hj1
      have hrec := ih (j + 1) l2 hj1 (fun m s hm hs => hterm m s (by omega) hs)
      split
      · rename_i t ls hsc
        rw [hsc] at hrec
        simp [Except.toOption] at hrec
      · rfl

/-- When the caption-block loop does find its terminator, the terminator is
at or after the start position and starts with `.ca-`. -/
theorem scanCaption_ok (buf : List String) (fuel : Nat) : ∀ (j : Nat) (lj : String)
    (t : Nat) (ls : List String),
    scanCaption buf fuel j lj = .ok (t, ls) →
    (strStarts lj ".ca-" = true ∧ t = j) ∨
      (j < t ∧ ∃ s, buf[t]? = some s ∧ strStarts s ".ca-" = true) := by
  induction fuel with
  | zero => intro j lj t ls h; exact absurd h (by simp [scanCaption])
  | succ fuel ih =>
    intro j lj t ls h
    unfold scanCaption at h
    by_cases hstart : strStarts lj ".ca-"
    · rw [hstart] at h
      simp only [if_true] at h
      injection h with h2
      injection h2 with ht _
      exact Or.inl ⟨hstart, ht.symm⟩
    · rw [Bool.not_eq_true] at hstart
      rw [hstart] at h
      simp only [Bool.false_eq_true, if_false] at h
      split at h
      · exact absurd h (by simp)
      · rename_i l2 hj1
        split at h
        · rename_i t2 ls2 hsc
          injection h with h2
          injection h2 with ht hls
          rcases ih (j + 1) l2 t2 ls2 hsc with ⟨hs2, ht2⟩ | ⟨hlt2, s, hbs, hss⟩
          · subst ht2
            exact Or.inr ⟨by omega, l2, ht ▸ hj1, hs2⟩
          · exact Or.inr ⟨by omega, s, ht ▸ hbs, hss⟩
        · exact absurd h (by simp)

/-- Reaching any position at or before an `.il` line whose bare caption block
never terminates, the parser ends in an error, for every fuel value. -/
theorem parseFrom_error (buf : List String) (i : Nat) (si sc : String)
    (h1 : buf[i]? = some si) (h2 : buf[i + 1]? = some sc)
    (hil : strStarts si ".il " = true)
    (hca : strStarts sc ".ca" = true) (hns : isSingleCa sc = false)
    (hterm : ∀ j s, i + 1 ≤ j → buf[j]? = some s → strStarts s ".ca-" = false) :
    ∀ fuel n page acc, n ≤ i → (parseFrom buf fuel n page acc).toOption = none := by
  have hilen : i < buf.length := (List.getElem?_eq_some_iff.mp h1).1
  intro fuel
  induction fuel with
  | zero => intro n page acc _; rfl
  | succ fuel ih =>
    intro n page acc hn
    have hnlen : n < buf.length := by omega
    unfold parseFrom
    split
    · rename_i heq
      rw [List.getElem?_eq_getElem hnlen] at heq
      exact absurd heq (by simp)
    · rename_i line heq
      by_cases hni : n = i
      · subst hni
        have hline : line = si := by
          rw [heq] at h1
          injection h1
        subst hline
        rw [hil]
        simp only [if_true]
        split
        · rfl
        · rename_i ilParams hpa
          split
          · rfl
          · rename_i nx hnx
            have hnx2 : nx = sc := by
              rw [hnx] at h2
              injection h2
            subst hnx2
            rw [hca]
            simp only [if_true, hns, Bool.false_eq_true, if_false]
            split
            · rfl
            · rename_i t capLines hsc
              have hscan := scanCaption_error buf (buf.length + 1) (n + 1) nx hnx
                (fun m s hm hs => hterm m s hm hs)
              rw [hsc] at hscan
              simp [Except.toOption] at hscan
      · have hnlt : n < i := by omega
        by_cases hniln : strStarts line ".il "
        · rw [hniln]
          simp only [if_true]
          split
          · rfl
          · rename_i ilParams hpa
            split
            · rfl
            · rename_i nx hnx
              by_cases hcaN : strStarts nx ".ca"
              · have hn1i : n + 1 ≠ i := by
                  intro he
                  have hx := h1
                  rw [← he] at hx
                  rw [hnx] at hx
                  injection hx with hv
                  rw [← hv] at hil
                  rw [starts_il_not_ca nx hil] at hcaN
                  exact absurd hcaN (by simp)
                rw [hcaN]
                simp only [if_true]
                by_cases hsingle : isSingleCa nx
                · rw [hsingle]
                  simp only [if_true]
                  split
                  · rfl
                  · rename_i fn hfn
                    exact ih (n + 2) _ _ (by omega)
                · rw [Bool.not_eq_true] at hsingle
                  rw [hsingle]
                  simp only [Bool.false_eq_true, if_false]
                  split
                  · rfl
                  · rename_i t capLines hsc
                    rcases scanCaption_ok buf _ (n + 1) nx t capLines hsc with
                      ⟨_, ht2⟩ | ⟨hlt2, s, hbs, hss⟩
                    · subst ht2
                      split
                      · rfl
                      · rename_i fn hfn
                        exact ih (n + 1) _ _ (by omega)
                    · have hti : t ≤ i := by
                        by_contra hgt
                        push_neg at hgt
                        have hx := hterm t s (by omega) hbs
                        rw [hx] at hss
                        exact absurd hss (by simp)
                      split
                      · rfl
                      · rename_i fn hfn
                        exact ih t _ _ hti
              · rw [Bool.not_eq_true] at hcaN
                rw [hcaN]
                simp only [Bool.false_eq_true, if_false]
                split
                · rfl
                · rename_i fn hfn
                  exact ih (n + 1) _ _ (by omega)
        · rw [Bool.not_eq_true] at hniln
          rw [hniln]
          simp only [Bool.false_eq_true, if_false]
          exact ih (n + 1) _ _ (by omega)

/-- C5 — Unterminated caption block is fatal: for every document buffer
containing a directive line followed by a bare caption marker whose block
never reaches a `.ca-` terminator line before the end of the buffer, the
Directive Parser signals an error (Python's `IndexError` from reading past
the end of the buffer) instead of returning a parse result. -/
theorem unterminated_caption_block_fatal (buf : List String) (i : Nat) (si sc : String)
    (h1 : buf[i]? = some si) (h2 : buf[i + 1]? = some sc)
    (hil : strStarts si ".il " = true)
    (hca : strStarts sc ".ca" = true) (hns : isSingleCa sc = false)
    (hterm : ∀ j s, i + 1 ≤ j → buf[j]? = some s → strStarts s ".ca-" = false) :
    (parseIllustrationBlocks buf).toOption = none :=
  parseFrom_error buf i si sc h1 h2 hil hca hns hterm
    (buf.length + 1) 0 "0" [] (Nat.zero_le i)

/-- Witness for C5: a three-line buffer whose `.ca` block never terminates
makes the parser fail. -/
theorem unterminated_caption_block_fatal_witness :
    (parseIllustrationBlocks
      [".il fn=i_001.jpg w=5", ".ca", "caption text"]).toOption = none :=
  unterminated_caption_block_fatal [".il fn=i_001.jpg w=5", ".ca", "caption text"] 0
    ".il fn=i_001.jpg w=5" ".ca" rfl rfl (by decide) (by decide) (by decide)
    (by
      intro j s hj hjs
      have hlt : j < 3 := (List.getElem?_eq_some_iff.mp hjs).1
      interval_cases j
      · have hx : ([".il fn=i_001.jpg w=5", ".ca", "caption text"]
            : List String)[1]? = some ".ca" := rfl
        rw [hx] at hjs
        injection hjs with hv
        rw [← hv]
        decide
      · have hx : ([".il fn=i_001.jpg w=5", ".ca", "caption text"]
            : List String)[2]? = some "caption text" := rfl
        rw [hx] at hjs
        injection hjs with hv
        rw [← hv]
        decide)

theorem markUsed_cons (p : String × ImageAsset) (ps : List (String × ImageAsset))
    (id : String) :
    markUsed (p :: ps) id =
      (if p.1 = id then (p.1, { p.2 with usageCount := p.2.usageCount + 1 }) else p)
        :: markUsed ps id := rfl

theorem alookup_markUsed_ne (inv : List (String × ImageAsset)) (id id' : String)
    (h : id' ≠ id) :
    alookup id' (markUsed inv id) = alookup id' inv := by
  induction inv with
  | nil => rfl
  | cons p ps ih =>
    rw [markUsed_cons]
    by_cases hp : p.1 = id
    · have hp' : ¬ (p.1 = id') := fun hh => h (hh.symm.trans hp)
      rw [if_pos hp]
      simp only [alookup, if_neg hp']
      exact ih
    · rw [if_neg hp]
      simp only [alookup]
      by_cases hp' : p.1 = id'
      · rw [if_pos hp', if_pos hp']
      · rw [if_neg hp', if_neg hp']
        exact ih

theorem alookup_markUsed_self (inv : List (String × ImageAsset)) (id : String) :
    alookup id (markUsed inv id) =
      (alookup id inv).map (fun a => { a with usageCount := a.usageCount + 1 }) := by
  induction inv with
  | nil => rfl
  | cons p ps ih =>
    rw [markUsed_cons]
    by_cases hp : p.1 = id
    · rw [if_pos hp]
      simp [alookup, if_pos hp]
    · rw [if_neg hp]
      simp only [alookup, if_neg hp]
      exact ih

theorem findSome?_eq_find?_map (f : α → β) (p : β → Bool) (l : List α) :
    (l.findSome? fun a => if p (f a) then some (f a) else none) = (l.map f).find? p := by
  induction l with
  | nil => rfl
  | cons a l ih =>
    by_cases h : p (f a) <;> simp [List.findSome?_cons, List.find?_cons, h, ih]

theorem letters_eq :
    letters = ['a', 'b', 'c', 'd', 'e', 'f', 'g', 'h', 'i', 'j', 'k', 'l', 'm',
               'n', 'o', 'p', 'q', 'r', 's', 't', 'u', 'v', 'w', 'x', 'y', 'z'] := by
  decide

theorem push_ne_self (s : String) (c : Char) : s.push c ≠ s := by
  intro h
  have hd : (s.push c).data = s.data := congrArg String.data h
  rw [String.data_push] at hd
  have := congrArg List.length hd
  simp at this

/-- C1 — ID Resolver order and determinism.  The resolver equals the
specification's candidate-list formulation (`base`, then `base+'a'`..`base+'z'`
first-unused, then `base` if present, else failure); and when `base` and
`base+'a'` are both unused, two consecutive resolutions on the same page —
with the usage count incremented in between, as `convertRawIllustrationMarkup`
does — yield `base` then `base+'a'`. -/
theorem resolver_order_and_determinism (inv : List (String × ImageAsset)) (page : String)
    (h0 : usage0 inv (idFromPageNumber page) = true)
    (ha : usage0 inv ((idFromPageNumber page).push 'a') = true) :
    resolveIlID inv page = some (idFromPageNumber page) ∧
    resolveIlID (markUsed inv (idFromPageNumber page)) page
      = some ((idFromPageNumber page).push 'a') ∧
    ∀ (inv' : List (String × ImageAsset)) (page' : String),
      resolveIlID inv' page' = specResolveID inv' page' := by
  refine ⟨?_, ?_, ?_⟩
  · simp [resolveIlID, h0]
  · have hbne : (idFromPageNumber page).push 'a' ≠ idFromPageNumber page :=
      push_ne_self _ 'a'
    have hb0 : usage0 (markUsed inv (idFromPageNumber page)) (idFromPageNumber page) = false := by
      unfold usage0 at h0 ⊢
      rw [alookup_markUsed_self]
      cases hl : alookup (idFromPageNumber page) inv with
      | none => simp [hl] at h0
      | some a => simp [hl] at h0 ⊢
    have hba : usage0 (markUsed inv (idFromPageNumber page))
        ((idFromPageNumber page).push 'a') = true := by
      unfold usage0 at ha ⊢
      rw [alookup_markUsed_ne _ _ _ hbne]
      exact ha
    simp [resolveIlID, hb0, letters_eq, List.findSome?_cons, hba]
  · intro inv' page'
    unfold resolveIlID specResolveID
    by_cases hb : usage0 inv' (idFromPageNumber page')
    · simp [hb, List.find?_cons]
    · simp only [hb, Bool.false_eq_true, if_false, List.find?_cons]
      rw [findSome?_eq_find?_map (fun letter => (idFromPageNumber page').push letter)
        (usage0 inv') letters]

/-- Witness for C1 at a concrete inventory: scan page `010` with unused
assets `i_010.jpg` and `i_010a.jpg`; the first tag resolves to `i_010`, the
second (after the usage count is bumped) to `i_010a`. -/
theorem resolver_order_and_determinism_witness :
    resolveIlID
      [("i_010", ⟨"i_010", "i_010.jpg", "010", (600, 800), "", 0⟩),
       ("i_010a", ⟨"i_010a", "i_010a.jpg", "010", (100, 100), "", 0⟩)] "010"
      = some "i_010" ∧
    resolveIlID
      (markUsed
        [("i_010", ⟨"i_010", "i_010.jpg", "010", (600, 800), "", 0⟩),
         ("i_010a", ⟨"i_010a", "i_010a.jpg", "010", (100, 100), "", 0⟩)]
        (idFromPageNumber "010")) "010"
      = some ((idFromPageNumber "010").push 'a') :=
  ⟨(resolver_order_and_determinism _ "010" (by decide) (by decide)).1,
   (resolver_order_and_determinism _ "010" (by decide) (by decide)).2.1⟩

/-! ## Claim C2: the width reconciler's percentage round-trip -/

/-- C2 — Width Reconciler percentage round-trip: a directive whose `w`
parameter contains a percentage is reconciled to carry the original value in
`ew` and the referenced asset's true pixel width (suffixed `px`) in `w`,
where the asset is looked up by the id derived from `fn`. -/
theorem width_reconciler_percentage_roundtrip
    (images : List (String × ImageAsset)) (ilParams : List (String × String))
    (wv fn : String) (img : ImageAsset)
    (hw : alookup "w" ilParams = some wv)
    (hpct : wv.data.contains '%' = true)
    (hfn : alookup "fn" ilParams = some fn)
    (himg : alookup (idFromFilename fn) images = some img) :
    ∃ r, updateWidthsDirective images ilParams = .ok r ∧
      alookup "ew" r = some wv ∧
      alookup "w" r = some (toString img.dimensions.1 ++ "px") := by
  have hfn1 : alookup "fn" (dictInsert ilParams "ew" wv) = some fn := by
    rw [alookup_dictInsert_ne _ _ _ _ (by decide)]
    exact hfn
  simp only [updateWidthsDirective, hw, hpct, if_true, hfn1, himg]
  refine ⟨_, rfl, ?_, ?_⟩
  · rw [alookup_dictInsert_ne _ _ _ _ (by decide), alookup_dictInsert_self]
  · rw [alookup_dictInsert_self]

/-- Witness for C2: `w=50%` with asset pixel width 1200 becomes `ew=50%`,
`w=1200px`. -/
theorem width_reconciler_percentage_roundtrip_witness :
    ∃ r, updateWidthsDirective
        [("i_001", ⟨"i_001", "i_001.jpg", "001", (1200, 900), "", 0⟩)]
        [("fn", "i_001.jpg"), ("w", "50%")] = .ok r ∧
      alookup "ew" r = some "50%" ∧
      alookup "w" r = some (toString (1200 : Nat) ++ "px") :=
  width_reconciler_percentage_roundtrip
    [("i_001", ⟨"i_001", "i_001.jpg", "001", (1200, 900), "", 0⟩)]
    [("fn", "i_001.jpg"), ("w", "50%")] "50%" "i_001.jpg"
    ⟨"i_001", "i_001.jpg", "001", (1200, 900), "", 0⟩
    (by decide) (by decide) (by decide) (by decide)

/-! ## Claim C4: loading the width cache -/

/-- C4 (amended) — Width-cache loading: whenever opening-plus-decoding the
cache file fails — because the file is missing OR because its contents are
malformed — `loadJSON` yields the empty cache and processing continues;
when it succeeds the decoded data is returned.  (The original claim said a
malformed file is a fatal error; the source catches every exception.) -/
theorem loadJSON_empty_on_failure (file : Option String) (decode : String → Option Cache) :
    (readJSONFile file decode = none → loadJSON file decode = []) ∧
    (∀ d, readJSONFile file decode = some d → loadJSON file decode = d) := by
  cases file with
  | none => exact ⟨fun _ => rfl, fun d h => by simp [readJSONFile] at h⟩
  | some s =>
    cases hd : decode s with
    | none =>
      refine ⟨fun _ => ?_, fun d h => ?_⟩
      · simp [loadJSON, hd]
      · simp [readJSONFile, hd] at h
    | some d0 =>
      refine ⟨fun h => ?_, fun d h => ?_⟩
      · simp [readJSONFile, hd] at h
      · simp [readJSONFile, hd] at h
        simp [loadJSON, hd, h]

/-- Counterexample for C4 as stated: the cache file exists but holds contents
every JSON decoder rejects; `loadJSON` returns the empty dictionary — the
exception is swallowed (line 626's bare `except`) and processing continues,
so a malformed cache file is NOT a fatal error. -/
theorem loadJSON_malformed_counterexample :
    loadJSON (some "not valid json") (fun _ => none) = [] := rfl

/-- Witness for the amended C4 at concrete inputs: a missing file yields the
empty cache; a well-formed file yields its decoded contents. -/
theorem loadJSON_empty_on_failure_witness :
    loadJSON none (fun _ => none) = [] ∧
    loadJSON (some "x") (fun _ => some [("images/a.jpg", ⟨"\"5\""⟩)])
      = [("images/a.jpg", ⟨"\"5\""⟩)] :=
  ⟨(loadJSON_empty_on_failure none (fun _ => none)).1 rfl,
   (loadJSON_empty_on_failure (some "x") (fun _ => some [("images/a.jpg", ⟨"\"5\""⟩)])).2 _ rfl⟩

/-! ## Claims C6 and C7: the width calculator -/

theorem presence_dictInsert (d : Cache) (k : String) (v : CacheEntry) (key : String)
    (h : (alookup key d).isSome = true) :
    (alookup key (dictInsert d k v)).isSome = true := by
  by_cases he : key = k
  · subst he
    rw [alookup_dictInsert_self]
    rfl
  · rw [alookup_dictInsert_ne _ _ _ _ he]
    exact h

theorem calcIlStep_ok (maxwidth : Nat) (acc : Cache)
    (kp : String × List (String × String)) (acc' : Cache)
    (h : calcIlStep maxwidth acc kp = .ok acc') :
    ∃ fn entry, alookup "fn" kp.2 = some fn ∧
      acc' = dictInsert acc ("images/" ++ fn) entry := by
  unfold calcIlStep at h
  split at h
  · exact Except.noConfusion h
  · split at h
    · exact Except.noConfusion h
    · rename_i fn hfn
      injection h with h2
      exact ⟨fn, _, hfn, h2.symm⟩

/-- Frame property of the directive loop: keys it does not write keep their
`jsonData` value, present keys stay present, and written keys are present. -/
theorem illsFold_frame (maxwidth : Nat) : ∀ (ills : List (String × List (String × String)))
    (acc res : Cache),
    ills.foldlM (calcIlStep maxwidth) acc = .ok res →
    (∀ key, key ∉ illsKeys ills → alookup key res = alookup key acc) ∧
    (∀ key, (alookup key acc).isSome = true → (alookup key res).isSome = true) ∧
    (∀ key ∈ illsKeys ills, (alookup key res).isSome = true) := by
  intro ills
  induction ills with
  | nil =>
    intro acc res h
    simp only [List.foldlM_nil] at h
    injection h with h2
    subst h2
    exact ⟨fun _ _ => rfl, fun _ hk => hk, by simp [illsKeys]⟩
  | cons kp ills ih =>
    intro acc res h
    rw [List.foldlM_cons] at h
    cases hstep : calcIlStep maxwidth acc kp with
    | error e => rw [hstep] at h; exact Except.noConfusion h
    | ok acc' =>
      rw [hstep] at h
      have h : ills.foldlM (calcIlStep maxwidth) acc' = .ok res := h
      obtain ⟨fn, entry, hfn, hacc'⟩ := calcIlStep_ok maxwidth acc kp acc' hstep
      obtain ⟨ihf, ihp, ihm⟩ := ih acc' res h
      have hkeys : illsKeys (kp :: ills) = ("images/" ++ fn) :: illsKeys ills := by
        simp [illsKeys, List.filterMap_cons, hfn]
      refine ⟨?_, ?_, ?_⟩
      · intro key hk
        rw [hkeys, List.mem_cons] at hk
        push_neg at hk
        rw [ihf key hk.2, hacc', alookup_dictInsert_ne _ _ _ _ hk.1]
      · intro key hsome
        apply ihp
        rw [hacc']
        exact presence_dictInsert acc _ _ key hsome
      · intro key hk
        rw [hkeys] at hk
        rcases List.mem_cons.mp hk with he | hm
        · subst he
          apply ihp
          rw [hacc', alookup_dictInsert_self]
          rfl
        · exact ihm key hm

/-- Frame property of the fallback loop. -/
theorem fallbackFold_frame (ills : List (String × List (String × String))) :
    ∀ (l : List (String × ImageAsset)) (acc : Cache),
    (∀ key, key ∉ l.filterMap (fun kp =>
        if containsKey ills kp.1 then none else some ("images/" ++ kp.2.fileName)) →
      alookup key (l.foldl (calcFallbackStep ills) acc) = alookup key acc) ∧
    (∀ key, (alookup key acc).isSome = true →
      (alookup key (l.foldl (calcFallbackStep ills) acc)).isSome = true) ∧
    (∀ key ∈ l.filterMap (fun kp =>
        if containsKey ills kp.1 then none else some ("images/" ++ kp.2.fileName)),
      (alookup key (l.foldl (calcFallbackStep ills) acc)).isSome = true) := by
  intro l
  induction l with
  | nil => exact fun acc => ⟨fun _ _ => rfl, fun _ hk => hk, by simp⟩
  | cons kp l ih =>
    intro acc
    rw [List.foldl_cons]
    by_cases hc : containsKey ills kp.1
    · have hkeys : (kp :: l).filterMap (fun kp =>
          if containsKey ills kp.1 then none else some ("images/" ++ kp.2.fileName))
          = l.filterMap (fun kp =>
            if containsKey ills kp.1 then none else some ("images/" ++ kp.2.fileName)) := by
        rw [List.filterMap_cons, hc]
        simp
      have hstep : calcFallbackStep ills acc kp = acc := by
        unfold calcFallbackStep
        rw [hc]
        simp
      rw [hkeys, hstep]
      exact ih acc
    · have hcf : containsKey ills kp.1 = false := by simpa using hc
      have hkeys : (kp :: l).filterMap (fun kp =>
          if containsKey ills kp.1 then none else some ("images/" ++ kp.2.fileName))
          = ("images/" ++ kp.2.fileName) :: l.filterMap (fun kp =>
            if containsKey ills kp.1 then none else some ("images/" ++ kp.2.fileName)) := by
        rw [List.filterMap_cons, hcf]
        simp
      have hstep : calcFallbackStep ills acc kp
          = dictInsert acc ("images/" ++ kp.2.fileName) ⟨"\"40%\""⟩ := by
        unfold calcFallbackStep
        rw [hcf]
        simp
      rw [hkeys, hstep]
      obtain ⟨ihf, ihp, ihm⟩ := ih (dictInsert acc ("images/" ++ kp.2.fileName) ⟨"\"40%\""⟩)
      refine ⟨?_, ?_, ?_⟩
      · intro key hk
        rw [List.mem_cons] at hk
        push_neg at hk
        rw [ihf key hk.2, alookup_dictInsert_ne _ _ _ _ hk.1]
      · intro key hsome
        exact ihp key (presence_dictInsert acc _ _ key hsome)
      · intro key hk
        rcases List.mem_cons.mp hk with he | hm
        · subst he
          apply ihp
          rw [alookup_dictInsert_self]
          rfl
        · exact ihm key hm

/-- C7 — Width-cache merge preserves unrelated entries: whenever a
width-calculation pass succeeds, every key it did not compute keeps exactly
its pre-existing value from the loaded cache, and every key it computed
(added or overwritten) is present in the written cache. -/
theorem width_cache_merge_preserves (ills : List (String × List (String × String)))
    (images : List (String × ImageAsset)) (maxwidth : Nat) (jsonData r : Cache)
    (h : calcImageWidths ills images maxwidth jsonData = .ok r) :
    (∀ key, key ∉ writtenKeys ills images → alookup key r = alookup key jsonData) ∧
    (∀ key ∈ writtenKeys ills images, (alookup key r).isSome = true) := by
  unfold calcImageWidths at h
  cases hfold : ills.foldlM (calcIlStep maxwidth) jsonData with
  | error e => rw [hfold] at h; exact Except.noConfusion h
  | ok d1 =>
    rw [hfold] at h
    injection h with h2
    subst h2
    obtain ⟨if1, ip1, im1⟩ := illsFold_frame maxwidth ills jsonData d1 hfold
    obtain ⟨ff1, fp1, fm1⟩ := fallbackFold_frame ills (sortByKey images) d1
    constructor
    · intro key hk
      unfold writtenKeys at hk
      rw [List.mem_append] at hk
      push_neg at hk
      rw [ff1 key hk.2, if1 key hk.1]
    · intro key hk
      unfold writtenKeys at hk
      rcases List.mem_append.mp hk with hm | hm
      · exact fp1 key (im1 key hm)
      · exact fm1 key hm

/-- Witness for C7: one computed directive key, one fallback key, and one
unrelated pre-existing key that survives unchanged. -/
theorem width_cache_merge_preserves_witness :
    ("images/old.jpg" ∉ writtenKeys [("i_001", [("fn", "i_001.jpg"), ("w", "50%")])]
        [("i_002", ⟨"i_002", "i_002.jpg", "002", (10, 10), "", 0⟩)]) ∧
    (∃ r, calcImageWidths [("i_001", [("fn", "i_001.jpg"), ("w", "50%")])]
        [("i_002", ⟨"i_002", "i_002.jpg", "002", (10, 10), "", 0⟩)] 100
        [("images/old.jpg", ⟨"\"5\""⟩)] = .ok r ∧
      alookup "images/old.jpg" r = some ⟨"\"5\""⟩ ∧
      (alookup "images/i_001.jpg" r).isSome = true ∧
      (alookup "images/i_002.jpg" r).isSome = true) := by
  have hwk : writtenKeys [("i_001", [("fn", "i_001.jpg"), ("w", "50%")])]
      [("i_002", ⟨"i_002", "i_002.jpg", "002", (10, 10), "", 0⟩)]
      = ["images/i_001.jpg", "images/i_002.jpg"] := by decide
  have hscale : calcScale [("fn", "i_001.jpg"), ("w", "50%")] = .ok (some (50 : Int)) := by
    have h1 : alookup "w" [("fn", "i_001.jpg"), ("w", "50%")] = some "50%" := by decide
    have h2 : ("50%".data.contains '%') = true := by decide
    have h3 : pctToInt "50%" = .ok 50 := rfl
    simp only [calcScale, h1, h2, if_true, h3]
    rfl
  have hfn : alookup "fn" [("fn", "i_001.jpg"), ("w", "50%")] = some "i_001.jpg" := by decide
  have hstep : calcIlStep 100 [("images/old.jpg", ⟨"\"5\""⟩)]
      ("i_001", [("fn", "i_001.jpg"), ("w", "50%")])
      = .ok (dictInsert [("images/old.jpg", ⟨"\"5\""⟩)] "images/i_001.jpg"
          ⟨calculatedWidthStr (some (50 : Int)) 100⟩) := by
    unfold calcIlStep
    rw [hscale, hfn]
    rfl
  have hr : calcImageWidths [("i_001", [("fn", "i_001.jpg"), ("w", "50%")])]
      [("i_002", ⟨"i_002", "i_002.jpg", "002", (10, 10), "", 0⟩)] 100
      [("images/old.jpg", ⟨"\"5\""⟩)]
      = .ok (dictInsert
          (dictInsert [("images/old.jpg", ⟨"\"5\""⟩)] "images/i_001.jpg"
            ⟨calculatedWidthStr (some (50 : Int)) 100⟩)
          "images/i_002.jpg" ⟨"\"40%\""⟩) := by
    unfold calcImageWidths
    rw [List.foldlM_cons, hstep]
    rfl
  have hmain := width_cache_merge_preserves _ _ 100 _ _ hr
  refine ⟨by rw [hwk]; decide, _, hr, ?_, ?_, ?_⟩
  · have := hmain.1 "images/old.jpg" (by rw [hwk]; decide)
    rw [this]
    decide
  · exact hmain.2 "images/i_001.jpg" (by rw [hwk]; decide)
  · exact hmain.2 "images/i_002.jpg" (by rw [hwk]; decide)

/-- C6 (amended) — Width Calculator arithmetic: for every directive whose
`w` parameter — or, failing that, whose `ew` parameter — is a percentage
`v`, the pass records under `images/<fn>` the value `int(v/100.0 *
maxwidth)` of the source's binary64 arithmetic — truncation toward zero of
the double product, not `round` (see the counterexample at 25% of 70) —
rendered as a decimal string wrapped in literal double quotes.  Percentage
and maxwidth are bounded by `2^53`, the range in which the source's float
computation stays finite and the int operands convert exactly. -/
theorem width_calculator_truncates (k fn : String) (ilParams : List (String × String))
    (v : Int) (maxwidth : Nat) (jsonData : Cache)
    (hparam :
      (∃ w, alookup "w" ilParams = some w ∧ w.data.contains '%' = true
        ∧ pctToInt w = .ok v)
      ∨ ((∀ w, alookup "w" ilParams = some w → w.data.contains '%' = false)
        ∧ ∃ ew, alookup "ew" ilParams = some ew ∧ ew.data.contains '%' = true
          ∧ pctToInt ew = .ok v))
    (_hv : v.natAbs ≤ 2 ^ 53) (_hmw : maxwidth ≤ 2 ^ 53)
    (hfn : alookup "fn" ilParams = some fn) :
    ∃ r, calcImageWidths [(k, ilParams)] [] maxwidth jsonData = .ok r ∧
      alookup ("images/" ++ fn) r
        = some ⟨"\"" ++ toString (floatWidth v maxwidth) ++ "\""⟩ := by
  have hscale : calcScale ilParams = .ok (some v) := by
    rcases hparam with ⟨w, hw, hpct, hv2⟩ | ⟨hnw, ew, hew, hpct, hv2⟩
    · simp only [calcScale, hw, hpct, if_true, hv2]
      rfl
    · cases hw : alookup "w" ilParams with
      | some w =>
        have hwf := hnw w hw
        simp only [calcScale, hw, hwf, Bool.false_eq_true, if_false, hew, hpct, if_true, hv2]
        rfl
      | none =>
        simp only [calcScale, hw, hew, hpct, if_true, hv2]
        rfl
  have hstep : calcIlStep maxwidth jsonData (k, ilParams)
      = .ok (dictInsert jsonData ("images/" ++ fn)
          ⟨calculatedWidthStr (some v) maxwidth⟩) := by
    unfold calcIlStep
    rw [hscale, hfn]
  refine ⟨dictInsert jsonData ("images/" ++ fn)
      ⟨calculatedWidthStr (some v) maxwidth⟩, ?_, ?_⟩
  · unfold calcImageWidths
    rw [List.foldlM_cons, hstep]
    rfl
  · rw [alookup_dictInsert_self]
    rfl

/-- Counterexample for C6 as stated: with maxwidth 70 and `w=25%` the code
records 17 (`int(0.25 * 70)` truncates the exactly represented 17.5), while
rounding would give 18. -/
theorem width_calculator_round_counterexample :
    (∃ r, calcImageWidths [("i_001", [("fn", "i_001.jpg"), ("w", "25%")])] [] 70 []
        = .ok r ∧ alookup "images/i_001.jpg" r = some ⟨"\"17\""⟩) ∧
    (round ((25 : ℚ) / 100 * 70) : Int) = 18 ∧ ("\"17\"" : String) ≠ "\"18\"" := by
  refine ⟨?_, ?_, by decide⟩
  · have hscale : calcScale [("fn", "i_001.jpg"), ("w", "25%")]
        = .ok (some (25 : Int)) := by
      have h1 : alookup "w" [("fn", "i_001.jpg"), ("w", "25%")] = some "25%" := by decide
      have h2 : ("25%".data.contains '%') = true := by decide
      have h3 : pctToInt "25%" = .ok 25 := rfl
      simp only [calcScale, h1, h2, if_true, h3]
      rfl
    have hfn : alookup "fn" [("fn", "i_001.jpg"), ("w", "25%")] = some "i_001.jpg" := by decide
    have hcw : calculatedWidthStr (some (25 : Int)) 70 = "\"17\"" := by decide
    have hstep : calcIlStep 70 [] ("i_001", [("fn", "i_001.jpg"), ("w", "25%")])
        = .ok (dictInsert [] "images/i_001.jpg"
            ⟨calculatedWidthStr (some (25 : Int)) 70⟩) := by
      unfold calcIlStep
      rw [hscale, hfn]
      rfl
    rw [hcw] at hstep
    refine ⟨dictInsert [] "images/i_001.jpg" ⟨"\"17\""⟩, ?_, ?_⟩
    · unfold calcImageWidths
      rw [List.foldlM_cons, hstep]
      rfl
    · rw [alookup_dictInsert_self]
  · rw [round_eq]
    norm_num

/-- Witness for the amended C6: scenario C — maxwidth 800 with `w=25%`
records target width 200 (`int(0.25 · 800)`, where truncation and rounding
agree). -/
theorem width_calculator_truncates_witness :
    (∃ r, calcImageWidths [("i_001", [("fn", "i_001.jpg"), ("w", "25%")])] [] 800 []
        = .ok r ∧
      alookup ("images/" ++ "i_001.jpg") r
        = some ⟨"\"" ++ toString (floatWidth (25 : Int) 800) ++ "\""⟩) ∧
    floatWidth (25 : Int) 800 = 200 :=
  ⟨width_calculator_truncates "i_001" "i_001.jpg" [("fn", "i_001.jpg"), ("w", "25%")]
    25 800 [] (Or.inl ⟨"25%", by decide, by decide, rfl⟩) (by decide) (by decide) (by decide),
   by decide⟩

/-! ## Claim C8: unused-image findings -/

theorem insertSorted_perm (p : String × α) (l : List (String × α)) :
    (insertSorted p l).Perm (p :: l) := by
  induction l with
  | nil => exact List.Perm.refl _
  | cons q qs ih =>
    unfold insertSorted
    by_cases hq : q.1 < p.1
    · rw [if_pos hq]
      exact (ih.cons q).trans (List.Perm.swap p q qs)
    · rw [if_neg hq]

theorem sortByKey_perm (l : List (String × α)) : (sortByKey l).Perm l := by
  induction l with
  | nil => exact List.Perm.refl _
  | cons p ps ih =>
    unfold sortByKey at ih ⊢
    rw [List.foldr_cons]
    exact (insertSorted_perm p (ps.foldr insertSorted [])).trans (ih.cons p)

theorem count_step_self (ills : List (String × Directive)) (fsz : String → Nat)
    (k : String) (a : ImageAsset) (hc : containsKey ills k = false) :
    (imageCheckStep ills fsz (k, a)).count (Finding.unusedImage a.fileName) = 1 := by
  unfold imageCheckStep
  rw [hc]
  simp only [Bool.not_false, if_true, List.count_append]
  have h1 : ([Finding.unusedImage a.fileName].count (Finding.unusedImage a.fileName)) = 1 := by
    simp
  rw [h1]
  have h2 : ∀ (f : List Finding), (∀ g ∈ f, g ≠ Finding.unusedImage a.fileName) →
      f.count (Finding.unusedImage a.fileName) = 0 := by
    intro f hf
    exact List.count_eq_zero.mpr (fun hmem => (hf _ hmem) rfl)
  rw [h2 _ ?_, h2 _ ?_, h2 _ ?_]
  · split
    · intro g hg
      rcases List.mem_singleton.mp hg with rfl
      simp
    · intro g hg
      simp at hg
  · split
    · intro g hg
      rcases List.mem_singleton.mp hg with rfl
      simp
    · intro g hg
      simp at hg
  · split
    · intro g hg
      rcases List.mem_singleton.mp hg with rfl
      simp
    · intro g hg
      simp at hg

theorem count_step_other (ills : List (String × Directive)) (fsz : String → Nat)
    (kp : String × ImageAsset) (x : String) (hne : kp.2.fileName ≠ x) :
    (imageCheckStep ills fsz kp).count (Finding.unusedImage x) = 0 := by
  apply List.count_eq_zero.mpr
  intro hmem
  unfold imageCheckStep at hmem
  rcases List.mem_append.mp hmem with hm | hm
  · rcases List.mem_append.mp hm with hm2 | hm2
    · rcases List.mem_append.mp hm2 with hm3 | hm3
      · split at hm3
        · rcases List.mem_singleton.mp hm3 with he
          injection he with he2
          exact hne he2.symm
        · simp at hm3
      · split at hm3
        · rcases List.mem_singleton.mp hm3 with he
          exact Finding.noConfusion he
        · simp at hm3
    · split at hm2
      · rcases List.mem_singleton.mp hm2 with he
        exact Finding.noConfusion he
      · simp at hm2
  · split at hm
    · rcases List.mem_singleton.mp hm with he
      exact Finding.noConfusion he
    · simp at hm

theorem count_flatMap_zero (f : String × ImageAsset → List Finding)
    (l : List (String × ImageAsset)) (x : Finding)
    (h : ∀ q ∈ l, (f q).count x = 0) : ((l.flatMap f).count x) = 0 := by
  induction l with
  | nil => rfl
  | cons q qs ih =>
    rw [List.flatMap_cons, List.count_append, h q (by simp),
      ih (fun r hr => h r (by simp [hr]))]

/-- Exactly one unused-image finding is produced for an asset with no
corresponding directive, over any inventory list with distinct ids in which
no other entry shares its filename. -/
theorem unused_count_list (ills : List (String × Directive)) (fsz : String → Nat) :
    ∀ (l : List (String × ImageAsset)) (k : String) (a : ImageAsset),
    (k, a) ∈ l → (l.map Prod.fst).Nodup →
    (∀ p ∈ l, p.2.fileName = a.fileName → p.1 = k) →
    containsKey ills k = false →
    ((l.flatMap (imageCheckStep ills fsz)).count (Finding.unusedImage a.fileName)) = 1 := by
  intro l
  induction l with
  | nil => intro k a hmem; simp at hmem
  | cons p ps ih =>
    intro k a hmem hnd huniq hc
    rw [List.map_cons, List.nodup_cons] at hnd
    rw [List.flatMap_cons, List.count_append]
    rcases List.mem_cons.mp hmem with he | hm
    · have hp : p = (k, a) := he.symm
      subst hp
      rw [count_step_self ills fsz k a hc]
      rw [count_flatMap_zero _ _ _ ?_]
      intro q hq
      apply count_step_other
      intro hfe
      have hqk : q.1 = k := huniq q (by simp [hq]) hfe
      have hqm : q.1 ∈ ps.map Prod.fst := List.mem_map_of_mem Prod.fst hq
      rw [hqk] at hqm
      exact hnd.1 hqm
    · have hpk : p.1 ≠ k := by
        intro he2
        have hk : k ∈ ps.map Prod.fst := List.mem_map_of_mem Prod.fst hm
        rw [← he2] at hk
        exact hnd.1 hk
      have hpf : p.2.fileName ≠ a.fileName := fun hfe => hpk (huniq p (by simp) hfe)
      rw [count_step_other ills fsz p a.fileName hpf, Nat.zero_add]
      exact ih k a hm hnd.2 (fun q hq hfe => huniq q (by simp [hq]) hfe) hc

theorem illAcc1_count (images : List (String × ImageAsset)) (acc : List Finding)
    (kp : String × Directive) (fn x : String) :
    (illAcc1 images acc kp fn).count (Finding.unusedImage x)
      = acc.count (Finding.unusedImage x) := by
  unfold illAcc1
  split
  · simp [List.count_append]
  · rfl

theorem illFindingsStep_count (images : List (String × ImageAsset))
    (acc : List Finding) (kp : String × Directive) (res : List Finding)
    (h : illFindingsStep images acc kp = .ok res) (x : String) :
    res.count (Finding.unusedImage x) = acc.count (Finding.unusedImage x) := by
  unfold illFindingsStep at h
  split at h
  · exact Except.noConfusion h
  · rename_i fn hfn
    split at h
    · exact Except.noConfusion h
    · rename_i w hw
      split at h
      · injection h with h2
        rw [← h2]
        exact illAcc1_count images acc kp fn x
      · split at h
        · exact Except.noConfusion h
        · rename_i wi hwi
          split at h
          · rename_i img himg
            split at h
            · injection h with h2
              rw [← h2, List.count_append]
              rw [illAcc1_count images acc kp fn x]
              simp
            · injection h with h2
              rw [← h2]
              exact illAcc1_count images acc kp fn x
          · injection h with h2
            rw [← h2]
            exact illAcc1_count images acc kp fn x

theorem illFold_count (images : List (String × ImageAsset)) :
    ∀ (l : List (String × Directive)) (acc res : List Finding),
    l.foldlM (illFindingsStep images) acc = .ok res → ∀ x,
    res.count (Finding.unusedImage x) = acc.count (Finding.unusedImage x) := by
  intro l
  induction l with
  | nil =>
    intro acc res h x
    simp only [List.foldlM_nil] at h
    injection h with h2
    rw [h2]
  | cons kp l ih =>
    intro acc res h x
    rw [List.foldlM_cons] at h
    cases hstep : illFindingsStep images acc kp with
    | error e => rw [hstep] at h; exact Except.noConfusion h
    | ok acc' =>
      rw [hstep] at h
      have h : l.foldlM (illFindingsStep images) acc' = .ok res := h
      rw [ih acc' res h x, illFindingsStep_count images acc kp acc' hstep x]

/-- C8 (amended) — Consistency Checker unused-image findings: every
inventory asset with no corresponding parsed directive produces exactly one
"unused image" finding — INCLUDING assets such as the cover image: the
source has no exemption set (the cover-image exemption on line 141 is
commented out).  Distinct ids and a unique filename are assumed so "exactly
one" is well-defined. -/
theorem checker_unused_no_exemption (images : List (String × ImageAsset))
    (ills : List (String × Directive)) (fsz : String → Nat)
    (k : String) (a : ImageAsset) (fs : List Finding)
    (hmem : (k, a) ∈ images)
    (hnd : (images.map Prod.fst).Nodup)
    (huniq : ∀ p ∈ images, p.2.fileName = a.fileName → p.1 = k)
    (hnotill : containsKey ills k = false)
    (hok : checkForIssues images ills fsz = .ok fs) :
    fs.count (Finding.unusedImage a.fileName) = 1 := by
  unfold checkForIssues at hok
  cases hill : illFindings images ills with
  | error e => rw [hill] at hok; exact Except.noConfusion hok
  | ok b =>
    rw [hill] at hok
    injection hok with h2
    subst h2
    rw [List.count_append]
    have hperm : (sortByKey images).Perm images := sortByKey_perm images
    have h1 : (imageFindings images ills fsz).count (Finding.unusedImage a.fileName) = 1 := by
      unfold imageFindings
      refine unused_count_list ills fsz (sortByKey images) k a ?_ ?_ ?_ hnotill
      · exact hperm.mem_iff.mpr hmem
      · exact ((hperm.map Prod.fst).nodup_iff).mpr hnd
      · exact fun p hp hfe => huniq p (hperm.mem_iff.mp hp) hfe
    have h2 : b.count (Finding.unusedImage a.fileName) = 0 := by
      unfold illFindings at hill
      rw [illFold_count images (sortByKey ills) [] b hill a.fileName]
      rfl
    rw [h1, h2]

/-- Counterexample for C8 as stated: `cover.jpg` — the exemplar of the
claim's exemption set — still yields exactly one unused-image finding,
because the exemption in the source is commented out. -/
theorem checker_cover_counterexample :
    checkForIssues [("cover", ⟨"cover", "cover.jpg", "", (100, 100), "", 0⟩)] [] (fun _ => 0)
      = .ok [Finding.unusedImage "cover.jpg"] ∧
    ([Finding.unusedImage "cover.jpg"].count (Finding.unusedImage "cover.jpg") = 1) := by
  exact ⟨rfl, by decide⟩

/-- Witness for the amended C8 at scenario D: an inventory holding only the
unused `i_099.jpg` yields exactly one finding for it. -/
theorem checker_unused_no_exemption_witness :
    ([Finding.unusedImage "i_099.jpg"] : List Finding).count
      (Finding.unusedImage "i_099.jpg") = 1 :=
  checker_unused_no_exemption
    [("i_099", ⟨"i_099", "i_099.jpg", "099", (100, 100), "", 0⟩)] [] (fun _ => 0)
    "i_099" ⟨"i_099", "i_099.jpg", "099", (100, 100), "", 0⟩
    [Finding.unusedImage "i_099.jpg"]
    (by decide) (by decide) (by decide) (by decide) rfl

end Ppimg
